import Mathlib

/-!
# Verification of the LRU + TTL cache engine (`src/main.go`)

This file gives a shallow embedding of the cache engine of the repository
and proves the specification claims about it.

The source file contains two versions of the engine; the second one
(the hand-rolled intrusive doubly linked list with `prev`/`next` pointers,
`moveToFront`/`addToFront`/`remove` helpers and the background
`startEvictionRoutine` sweeper) is the one the specification describes, and
it is the version embedded here.

Modelling conventions:
* Heap pointers (`*entry`) become indices into an arena `heap : List Node`;
  a `nil` pointer becomes `none : Option Nat`.  Dereferencing a possibly-nil
  pointer is modelled with `Option`: the one place the Go code dereferences a
  pointer that can be `nil` is `this.tail.key` inside `Set`, so `Set` returns
  `Option LRUCache`, with `none` standing for the runtime fault (nil pointer
  dereference).  All other dereferences are of pointers stored in the map,
  which are never nil; they are modelled with a total read `nodeAt` (its
  out-of-range default is never reached from well-formed states).
* The Go map `cache : map[int]*entry` becomes an association list
  `List (Int × Nat)` with unique keys (key, arena index); map iteration order
  is the order of that list.
* `time.Time` / `time.Duration` become `Int` (monotonic nanosecond counts);
  each operation receives the current instant `now : Int` as an argument, and
  the two adjacent clock reads inside one operation (`time.Now()` followed by
  `time.Since`) are modelled as the same instant.
* `go cache.startEvictionRoutine()` runs one body of the ticker loop per tick;
  a single pass of that loop is embedded as `sweepPass`, taken as one of the
  atomic operations (everything runs under the single engine mutex, so an
  interleaving of `Get`/`Set`/sweep passes is a sequence of these atomic
  steps).
-/

set_option maxHeartbeats 1000000

namespace LRU

/-- The `entry` struct of the source: key, value, last-touched timestamp and
the two intrusive links of the recency list (`prev`/`next`, nil = `none`). -/
structure Node where
  key : Int
  value : Int
  timestamp : Int
  prev : Option Nat
  next : Option Nat
deriving Repr, DecidableEq, Inhabited

/-- The `LRUCache` struct of the source.  `heap` is the arena the node
"pointers" (arena indices) refer to; `cache` is the key index
(`map[int]*entry`); `head`/`tail` are the ends of the intrusive list.
The mutex is not part of the sequential state. -/
structure LRUCache where
  capacity : Int
  expiration : Int
  heap : List Node
  cache : List (Int × Nat)
  head : Option Nat
  tail : Option Nat
deriving Repr, DecidableEq

/-- Read the node a (non-nil) pointer refers to.  From well-formed states the
index is always in range; the default is never reached. -/
def nodeAt (heap : List Node) (i : Nat) : Node :=
  (heap[i]?).getD default

/-- Write back a mutated node. -/
def setNode (heap : List Node) (i : Nat) (n : Node) : List Node :=
  heap.set i n

/-- Source `elem, ok := this.cache[key]` — map lookup. -/
def cacheLookup (c : List (Int × Nat)) (k : Int) : Option Nat :=
  (c.find? (fun p => p.1 == k)).map (fun p => p.2)

/-- Source `delete(this.cache, key)` — map deletion (keys are unique, so removing
the first occurrence is map deletion). -/
def cacheErase (c : List (Int × Nat)) (k : Int) : List (Int × Nat) :=
  c.eraseP (fun p => p.1 == k)

/-- Source `this.cache[key] = elem` — map assignment. -/
def cacheInsert (c : List (Int × Nat)) (k : Int) (i : Nat) : List (Int × Nat) :=
  (k, i) :: cacheErase c k

/-- Source `func (this *LRUCache) remove(entry *entry)`:
patch the neighbours' links (or `head`/`tail`) around `entry`.  Field reads
happen in source order against the current heap. -/
def remove (s : LRUCache) (i : Nat) : LRUCache :=
  let s1 :=
    match (nodeAt s.heap i).prev with
    | some p =>
        let pn := { nodeAt s.heap p with next := (nodeAt s.heap i).next }
        { s with heap := setNode s.heap p pn }
    | none => { s with head := (nodeAt s.heap i).next }
  match (nodeAt s1.heap i).next with
  | some n =>
      let nn := { nodeAt s1.heap n with prev := (nodeAt s1.heap i).prev }
      { s1 with heap := setNode s1.heap n nn }
  | none => { s1 with tail := (nodeAt s1.heap i).prev }

/-- Source `func (this *LRUCache) addToFront(entry *entry)`:
`entry.prev = nil; entry.next = this.head; if this.head != nil
{ this.head.prev = entry }; this.head = entry; if this.tail == nil
{ this.tail = entry }`. -/
def addToFront (s : LRUCache) (i : Nat) : LRUCache :=
  let n1 := { nodeAt s.heap i with prev := none, next := s.head }
  let s1 := { s with heap := setNode s.heap i n1 }
  let s2 :=
    match s1.head with
    | some h =>
        let hn := { nodeAt s1.heap h with prev := some i }
        { s1 with heap := setNode s1.heap h hn }
    | none => s1
  let s3 := { s2 with head := some i }
  match s3.tail with
  | none => { s3 with tail := some i }
  | some _ => s3

/-- Source `func (this *LRUCache) moveToFront(entry *entry)`:
`this.remove(entry); this.addToFront(entry)`. -/
def moveToFront (s : LRUCache) (i : Nat) : LRUCache :=
  addToFront (remove s i) i

/-- Source `func (this *LRUCache) evict(key int)`:
if the key is present, delete it from the map and unlink its node.
(The `log.Printf` has no state effect.) -/
def evict (s : LRUCache) (k : Int) : LRUCache :=
  match cacheLookup s.cache k with
  | some i => remove { s with cache := cacheErase s.cache k } i
  | none => s

/-- Source `func (this *LRUCache) Get(key int) int`.
Note the source order: `entry.timestamp = time.Now()` happens BEFORE the
`time.Since(entry.timestamp) > this.expiration` test, so the test compares
the just-written timestamp with (the same) `now`. -/
def Get (s : LRUCache) (now k : Int) : Int × LRUCache :=
  match cacheLookup s.cache k with
  | some i =>
    let n1 := { nodeAt s.heap i with timestamp := now }
    let s1 := { s with heap := setNode s.heap i n1 }
    if now - (nodeAt s1.heap i).timestamp > s1.expiration then
      (-1, evict s1 k)
    else
      ((nodeAt s1.heap i).value, moveToFront s1 i)
  | none => (-1, s)

/-- Source `func (this *LRUCache) Set(key int, value int)`.
On the new-key path, if `len(this.cache) >= this.capacity` the source
dereferences `this.tail.key` without a nil check; `none` models that nil
pointer dereference (panic). -/
def Set (s : LRUCache) (now k v : Int) : Option LRUCache :=
  match cacheLookup s.cache k with
  | some i =>
    let n1 := { nodeAt s.heap i with value := v, timestamp := now }
    let s1 := { s with heap := setNode s.heap i n1 }
    some (moveToFront s1 i)
  | none =>
    let step1 : Option LRUCache :=
      if (s.cache.length : Int) ≥ s.capacity then
        match s.tail with
        | some t => some (evict s (nodeAt s.heap t).key)
        | none => none
      else
        some s
    match step1 with
    | none => none
    | some s1 =>
      let i := s1.heap.length
      let newEntry : Node :=
        { key := k, value := v, timestamp := now, prev := none, next := none }
      let s2 :=
        { s1 with heap := s1.heap ++ [newEntry], cache := cacheInsert s1.cache k i }
      some (addToFront s2 i)

/-- One pass of the ticker loop body of `startEvictionRoutine`:
`for key, elem := range this.cache { if time.Since(elem.timestamp) >
this.expiration { this.evict(key) } }`.  The range iterates over a snapshot
of the key set (only the visited key itself is ever deleted during the
iteration); the timestamp is read through the pointer, i.e. from the current
heap. -/
def sweepPass (s : LRUCache) (now : Int) : LRUCache :=
  s.cache.foldl
    (fun acc p =>
      if now - (nodeAt acc.heap p.2).timestamp > acc.expiration then
        evict acc p.1
      else acc)
    s

/-- Source `func Constructor(capacity int, expiration time.Duration) LRUCache`:
fresh empty state (the spawned sweeper goroutine is modelled by `sweepPass`
steps in operation sequences). -/
def Constructor (capacity expiration : Int) : LRUCache :=
  { capacity := capacity
    expiration := expiration
    heap := []
    cache := []
    head := none
    tail := none }

/-- The interval, in seconds, of the sweeper ticker
(`time.Tick(1 * time.Second)`). -/
def sweepIntervalSeconds : Int := 1

/-- An atomic client-visible operation: a `Get`, a `Set`, or one sweep pass,
each at a given instant. -/
inductive Op where
  | get (now k : Int)
  | set (now k v : Int)
  | sweep (now : Int)
deriving Repr, DecidableEq

/-- Execute one operation; `none` is a runtime fault (nil dereference). -/
def step (s : LRUCache) : Op → Option LRUCache
  | .get now k => some (Get s now k).2
  | .set now k v => Set s now k v
  | .sweep now => some (sweepPass s now)

/-- Execute a sequence of operations. -/
def run (s : LRUCache) : List Op → Option LRUCache
  | [] => some s
  | o :: ops =>
    match step s o with
    | some s1 => run s1 ops
    | none => none

/-- Shape predicate `isChain heap p h l`: starting from the pointer `h`, whose pointee (if
any) must have back-pointer `p`, the `next` links visit exactly the arena
indices `l` and end at nil.  This is the doubly linked list shape predicate. -/
def isChain (heap : List Node) : Option Nat → Option Nat → List Nat → Prop
  | _, h, [] => h = none
  | p, h, i :: l =>
      h = some i ∧ i < heap.length ∧ (nodeAt heap i).prev = p ∧
        isChain heap (some i) (nodeAt heap i).next l

instance isChainDecidable (heap : List Node) :
    (p h : Option Nat) → (l : List Nat) → Decidable (isChain heap p h l)
  | _, h, [] => by unfold isChain; infer_instance
  | p, h, i :: l =>
    have : Decidable (isChain heap (some i) (nodeAt heap i).next l) :=
      isChainDecidable heap (some i) (nodeAt heap i).next l
    by unfold isChain; infer_instance

/-- The keys stored along a list of arena indices. -/
def chainKeys (heap : List Node) (l : List Nat) : List Int :=
  l.map (fun i => (nodeAt heap i).key)

/-- Well-formedness of a state relative to the list `l` of arena indices of
the recency chain, head first: the links form a chain from `head`, `tail` is
its last element, the stored keys are pairwise distinct, and the key index
holds exactly the pairs (key of node, node) for the chain's nodes. -/
structure WfWith (s : LRUCache) (l : List Nat) : Prop where
  chain : isChain s.heap none s.head l
  tail_eq : s.tail = l.getLast?
  keys_nodup : (chainKeys s.heap l).Nodup
  cache_perm : s.cache.Perm (l.map (fun i => ((nodeAt s.heap i).key, i)))

/-- A state is well formed when some chain list witnesses it. -/
def Wf (s : LRUCache) : Prop := ∃ l, WfWith s l

/-- Fuel-bounded walk of the `next` links, used to express "walking `order`
from head to tail" executably. -/
def walkFrom (heap : List Node) : Nat → Option Nat → List Nat
  | 0, _ => []
  | _ + 1, none => []
  | fuel + 1, some i => i :: walkFrom heap fuel (nodeAt heap i).next

/-- Walk the recency list from head to tail (fuel `|heap| + 1` suffices for
every well-formed state). -/
def walk (s : LRUCache) : List Nat :=
  walkFrom s.heap (s.heap.length + 1) s.head

/-! ## The abstract (observable) view of the engine state

`absList s l` is the sequence of (key, last-touched timestamp) pairs along
the recency chain, head first.  The `model*` functions mirror, at this
abstract level, exactly the decisions the code takes; the `*_spec` theorems
below prove the correspondence. -/

/-- Keys and timestamps along the chain, most recent first. -/
def absList (s : LRUCache) (l : List Nat) : List (Int × Int) :=
  l.map (fun i => ((nodeAt s.heap i).key, (nodeAt s.heap i).timestamp))

/-- Abstract `Get`.  The staleness test mirrors the source: the timestamp is
refreshed first, so the test compares `now` with itself (`now - now > ttl`),
which fails whenever `0 ≤ ttl` — the reactive expiry path is dead code then. -/
def modelGet (ttl now k : Int) (r : List (Int × Int)) : List (Int × Int) :=
  if (r.map Prod.fst).contains k then
    if now - now > ttl then r.filter (fun p => !(p.1 == k))
    else (k, now) :: r.filter (fun p => !(p.1 == k))
  else r

/-- Abstract `Set`.  `none` is the nil-tail dereference on the new-key path
at capacity with an empty list. -/
def modelSet (cap now k v : Int) (r : List (Int × Int)) : Option (List (Int × Int)) :=
  if (r.map Prod.fst).contains k then
    some ((k, now) :: r.filter (fun p => !(p.1 == k)))
  else if (r.length : Int) ≥ cap then
    match r.getLast? with
    | some _ => some ((k, now) :: r.dropLast)
    | none => none
  else some ((k, now) :: r)

/-- Abstract sweep pass: drop every entry whose age exceeds `ttl`. -/
def modelSweep (ttl now : Int) (r : List (Int × Int)) : List (Int × Int) :=
  r.filter (fun p => !(decide (now - p.2 > ttl)))

/-- Abstract step. -/
def modelStep (cap ttl : Int) (r : List (Int × Int)) : Op → Option (List (Int × Int))
  | .get now k => some (modelGet ttl now k r)
  | .set now k v => modelSet cap now k v r
  | .sweep now => some (modelSweep ttl now r)

/-- Abstract run. -/
def modelRun (cap ttl : Int) : List (Int × Int) → List Op → Option (List (Int × Int))
  | r, [] => some r
  | r, o :: ops =>
    match modelStep cap ttl r o with
    | some r2 => modelRun cap ttl r2 ops
    | none => none

/-- The keys along the recency list from head to tail. -/
def walkKeys (s : LRUCache) : List Int :=
  chainKeys s.heap (walk s)

/-! ## Basic facts about arena reads and writes -/

theorem length_setNode (heap : List Node) (i : Nat) (n : Node) :
    (setNode heap i n).length = heap.length := by
  simp [setNode]

theorem nodeAt_set_self (heap : List Node) (i : Nat) (n : Node) (h : i < heap.length) :
    nodeAt (setNode heap i n) i = n := by
  simp [nodeAt, setNode, List.getElem?_set_eq_of_lt, h]

theorem nodeAt_set_ne (heap : List Node) {i j : Nat} (n : Node) (h : i ≠ j) :
    nodeAt (setNode heap i n) j = nodeAt heap j := by
  simp [nodeAt, setNode, List.getElem?_set_ne, h]

theorem nodeAt_append_lt (heap ext : List Node) {i : Nat} (h : i < heap.length) :
    nodeAt (heap ++ ext) i = nodeAt heap i := by
  simp [nodeAt, List.getElem?_append_left h]

theorem nodeAt_append_self (heap : List Node) (n : Node) :
    nodeAt (heap ++ [n]) heap.length = n := by
  simp [nodeAt]

/-! ## Facts about the key index (association list) -/

theorem cacheLookup_eq_none {c : List (Int × Nat)} {k : Int} :
    cacheLookup c k = none ↔ ∀ p ∈ c, p.1 ≠ k := by
  simp [cacheLookup, List.find?_eq_none]

theorem cacheLookup_mem {c : List (Int × Nat)} {k : Int} {i : Nat}
    (h : cacheLookup c k = some i) : (k, i) ∈ c := by
  simp only [cacheLookup, Option.map_eq_some'] at h
  obtain ⟨p, hp, hpi⟩ := h
  have hmem := List.mem_of_find?_eq_some hp
  have hk := List.find?_some hp
  simp at hk
  cases p
  simp_all

theorem cacheLookup_cons (p : Int × Nat) (c : List (Int × Nat)) (k : Int) :
    cacheLookup (p :: c) k = if p.1 = k then some p.2 else cacheLookup c k := by
  by_cases hk : p.1 = k <;> simp [cacheLookup, List.find?_cons, hk]

theorem cacheErase_cons (p : Int × Nat) (c : List (Int × Nat)) (k : Int) :
    cacheErase (p :: c) k = if p.1 = k then c else p :: cacheErase c k := by
  by_cases hk : p.1 = k <;> simp [cacheErase, List.eraseP_cons, hk]

theorem cacheErase_eq_of_not_mem {c : List (Int × Nat)} {k : Int}
    (h : ∀ p ∈ c, p.1 ≠ k) : cacheErase c k = c := by
  induction c with
  | nil => rfl
  | cons p c ih =>
    rw [cacheErase_cons, if_neg (h p (by simp))]
    exact congrArg (p :: ·) (ih (fun q hq => h q (by simp [hq])))

theorem cacheErase_eq_erase {c : List (Int × Nat)} {k : Int} {i : Nat}
    (hnd : (c.map Prod.fst).Nodup) (hm : (k, i) ∈ c) :
    cacheErase c k = c.erase (k, i) := by
  induction c with
  | nil => simp at hm
  | cons p c ih =>
    simp only [List.map_cons, List.nodup_cons] at hnd
    rcases List.mem_cons.1 hm with hh | ht
    · subst hh
      rw [cacheErase_cons, if_pos rfl, List.erase_cons_head]
    · have hp : p.1 ≠ k := by
        intro hk
        exact hnd.1 (hk ▸ (List.mem_map.2 ⟨(k, i), ht, rfl⟩))
      have hpne : p ≠ (k, i) := by
        intro he; exact hp (by rw [he])
      rw [cacheErase_cons, if_neg hp,
        List.erase_cons_tail (by simpa using hpne)]
      exact congrArg (p :: ·) (ih hnd.2 ht)

theorem mem_cacheErase_keys {c : List (Int × Nat)} {k k2 : Int}
    (h : ∀ p ∈ c, p.1 ≠ k) : ∀ p ∈ cacheErase c k2, p.1 ≠ k := by
  intro p hp
  exact h p (List.mem_of_mem_eraseP hp)

/-- With pairwise distinct keys, deleting a key is an order-preserving
filter (the matching pair is unique). -/
theorem cacheErase_eq_filter {c : List (Int × Nat)} {k : Int}
    (hnd : (c.map Prod.fst).Nodup) :
    cacheErase c k = c.filter (fun p => !(p.1 == k)) := by
  induction c with
  | nil => rfl
  | cons p c ih =>
    simp only [List.map_cons, List.nodup_cons] at hnd
    by_cases hk : p.1 = k
    · rw [cacheErase_cons, if_pos hk, List.filter_cons]
      have : (!(p.1 == k)) = false := by simp [hk]
      rw [this]
      simp only [Bool.false_eq_true, if_false]
      have hrest : ∀ q ∈ c, q.1 ≠ k := by
        intro q hq hqk
        exact hnd.1 (by
          rw [hk, ← hqk]
          exact List.mem_map.2 ⟨q, hq, rfl⟩)
      rw [List.filter_eq_self.2 (fun q hq => by simpa using hrest q hq)]
    · rw [cacheErase_cons, if_neg hk, List.filter_cons]
      have : (!(p.1 == k)) = true := by simp [hk]
      rw [this]
      simp only [if_true]
      rw [ih hnd.2]

/-! ## Facts about the chain shape predicate -/

theorem isChain_nil (heap : List Node) (p h : Option Nat) :
    isChain heap p h [] ↔ h = none := Iff.rfl

theorem isChain_cons (heap : List Node) (p h : Option Nat) (i : Nat) (l : List Nat) :
    isChain heap p h (i :: l) ↔
      h = some i ∧ i < heap.length ∧ (nodeAt heap i).prev = p ∧
        isChain heap (some i) (nodeAt heap i).next l := Iff.rfl

theorem isChain_mem_lt {heap : List Node} :
    ∀ {l : List Nat} {p h : Option Nat}, isChain heap p h l → ∀ i ∈ l, i < heap.length := by
  intro l
  induction l with
  | nil => intro p h _ i hi; simp at hi
  | cons a l ih =>
    intro p h hc i hi
    rw [isChain_cons] at hc
    rcases List.mem_cons.1 hi with rfl | hi
    · exact hc.2.1
    · exact ih hc.2.2.2 i hi

theorem isChain_head {heap : List Node} {l : List Nat} {p h : Option Nat}
    (hc : isChain heap p h l) : h = l.head? := by
  cases l with
  | nil => simpa using hc
  | cons a l => simpa using hc.1

theorem isChain_congr {heap heap2 : List Node} (hlen : heap2.length = heap.length) :
    ∀ {l : List Nat} {p h : Option Nat}, (∀ j ∈ l, nodeAt heap2 j = nodeAt heap j) →
      isChain heap p h l → isChain heap2 p h l := by
  intro l
  induction l with
  | nil => intro p h _ hc; exact hc
  | cons a l ih =>
    intro p h hread hc
    rw [isChain_cons] at hc ⊢
    have ha := hread a (by simp)
    refine ⟨hc.1, hlen ▸ hc.2.1, ha ▸ hc.2.2.1, ?_⟩
    rw [ha]
    exact ih (fun j hj => hread j (by simp [hj])) hc.2.2.2

theorem isChain_append_ext {heap ext : List Node} :
    ∀ {l : List Nat} {p h : Option Nat}, isChain heap p h l →
      isChain (heap ++ ext) p h l := by
  intro l
  induction l with
  | nil => intro p h hc; exact hc
  | cons a l ih =>
    intro p h hc
    rw [isChain_cons] at hc ⊢
    have ha : nodeAt (heap ++ ext) a = nodeAt heap a := nodeAt_append_lt heap ext hc.2.1
    refine ⟨hc.1, by simpa using Nat.lt_of_lt_of_le hc.2.1 (by simp), ha ▸ hc.2.2.1, ?_⟩
    rw [ha]
    exact ih hc.2.2.2

theorem isChain_suffix {heap : List Node} {i : Nat} {l2 : List Nat} :
    ∀ {l1 : List Nat} {p h : Option Nat}, isChain heap p h (l1 ++ i :: l2) →
      i < heap.length ∧ isChain heap (some i) (nodeAt heap i).next l2 := by
  intro l1
  induction l1 with
  | nil =>
    intro p h hc
    rw [List.nil_append, isChain_cons] at hc
    exact ⟨hc.2.1, hc.2.2.2⟩
  | cons a l1 ih =>
    intro p h hc
    rw [List.cons_append, isChain_cons] at hc
    exact ih hc.2.2.2

theorem isChain_prev_decomp {heap : List Node} {i : Nat} {l2 : List Nat} :
    ∀ {l1 : List Nat} {p h : Option Nat}, isChain heap p h (l1 ++ i :: l2) →
      (nodeAt heap i).prev = (match l1.getLast? with | some a => some a | none => p) := by
  intro l1
  induction l1 with
  | nil =>
    intro p h hc
    rw [List.nil_append, isChain_cons] at hc
    simpa using hc.2.2.1
  | cons a l1 ih =>
    intro p h hc
    rw [List.cons_append, isChain_cons] at hc
    have := ih hc.2.2.2
    cases l1 with
    | nil => simpa using this
    | cons b l1 => simpa [List.getLast?_cons_cons] using this

/-- Core unlinking lemma: if `heap2` agrees with `heap` except that `i`'s
predecessor now skips forward to `i`'s successor and `i`'s successor now
points back to `i`'s predecessor, then erasing `i` from a chain through `i`
yields a chain again.  The head of the new chain is `i`'s successor when `i`
was first, and is unchanged otherwise. -/
theorem isChain_erase_aux {heap heap2 : List Node} {i : Nat} {l2 : List Nat}
    (hlen : heap2.length = heap.length)
    (hP : ∀ jp, (nodeAt heap i).prev = some jp →
      nodeAt heap2 jp = { nodeAt heap jp with next := (nodeAt heap i).next })
    (hN : ∀ jn, (nodeAt heap i).next = some jn →
      nodeAt heap2 jn = { nodeAt heap jn with prev := (nodeAt heap i).prev })
    (hO : ∀ j, (nodeAt heap i).prev ≠ some j → (nodeAt heap i).next ≠ some j →
      nodeAt heap2 j = nodeAt heap j) :
    ∀ (l1 : List Nat) (p h : Option Nat),
      isChain heap p h (l1 ++ i :: l2) →
      (l1 ++ i :: l2).Nodup →
      (∀ j ∈ i :: l2, p ≠ some j) →
      (∀ j ∈ l1, (nodeAt heap i).next ≠ some j) →
      isChain heap2 p
        (match l1 with | [] => (nodeAt heap i).next | _ :: _ => h) (l1 ++ l2) := by
  intro l1
  induction l1 with
  | nil =>
    intro p h hc hnd hp _
    rw [List.nil_append] at hc hnd
    rw [isChain_cons] at hc
    obtain ⟨rfl, hilt, hiprev, hc2⟩ := hc
    rw [List.nil_append]
    cases hl2 : l2 with
    | nil =>
      subst hl2
      rw [isChain_nil] at hc2 ⊢
      exact hc2
    | cons nx l2x =>
      subst hl2
      rw [isChain_cons] at hc2
      obtain ⟨hNeq, hnxlt, hnxprev, hc3⟩ := hc2
      have hread : nodeAt heap2 nx = { nodeAt heap nx with prev := (nodeAt heap i).prev } :=
        hN nx hNeq
      rw [isChain_cons]
      refine ⟨hNeq, hlen ▸ hnxlt, ?_, ?_⟩
      · rw [hread]
        exact hiprev
      · have hnext2 : (nodeAt heap2 nx).next = (nodeAt heap nx).next := by rw [hread]
        rw [hnext2]
        refine isChain_congr hlen ?_ hc3
        intro j hj
        have hnd2 : nx ∉ l2x := by
          simp only [List.nodup_cons] at hnd
          exact hnd.2.1
        refine hO j ?_ ?_
        · rw [hiprev]
          exact hp j (by simp [hj])
        · rw [hNeq]
          intro hcontra
          rw [Option.some_inj] at hcontra
          subst hcontra
          exact hnd2 hj
  | cons a l1x ih =>
    intro p h hc hnd hp hn
    rw [List.cons_append, isChain_cons] at hc
    obtain ⟨rfl, halt, haprev, hc2⟩ := hc
    have hanotin : a ∉ l1x ++ i :: l2 := (List.nodup_cons.1 hnd).1
    have hndx : (l1x ++ i :: l2).Nodup := (List.nodup_cons.1 hnd).2
    have hpx : ∀ j ∈ i :: l2, (some a : Option Nat) ≠ some j := by
      intro j hj hcontra
      apply hanotin
      rw [Option.some_inj] at hcontra
      subst hcontra
      exact List.mem_append.2 (Or.inr hj)
    have hnx : ∀ j ∈ l1x, (nodeAt heap i).next ≠ some j :=
      fun j hj => hn j (by simp [hj])
    cases hl1x : l1x with
    | nil =>
      subst hl1x
      have hc2x := hc2
      rw [List.nil_append, isChain_cons] at hc2x
      obtain ⟨hanext, hilt2, hiprev, hc3⟩ := hc2x
      have hread : nodeAt heap2 a = { nodeAt heap a with next := (nodeAt heap i).next } :=
        hP a (by rw [hiprev])
      rw [List.cons_append, isChain_cons]
      refine ⟨rfl, hlen ▸ halt, ?_, ?_⟩
      · rw [hread]
        exact haprev
      · have hrec := ih (some a) (nodeAt heap a).next hc2 hndx hpx
          (by intro j hj; simp at hj)
        rw [hread]
        simpa using hrec
    | cons b l1y =>
      subst hl1x
      have hPsome : ∃ x, (nodeAt heap i).prev = some x ∧ x ∈ b :: l1y := by
        have hdec := isChain_prev_decomp hc2
        cases hgl : (b :: l1y).getLast? with
        | none => simp at hgl
        | some x =>
          rw [hgl] at hdec
          have hxl : x ∈ (b :: l1y).getLast? := by simp [Option.mem_def, hgl]
          obtain ⟨hne, hx⟩ := List.mem_getLast?_eq_getLast hxl
          refine ⟨x, hdec, ?_⟩
          rw [hx]
          exact List.getLast_mem hne
      obtain ⟨x, hxeq, hxmem⟩ := hPsome
      have hxa : x ≠ a := by
        intro hcontra
        subst hcontra
        exact hanotin (List.mem_append.2 (Or.inl hxmem))
      have hread : nodeAt heap2 a = nodeAt heap a := by
        refine hO a ?_ ?_
        · rw [hxeq]
          intro hcontra
          exact hxa (Option.some_inj.1 hcontra)
        · exact hn a (by simp)
      rw [List.cons_append, isChain_cons]
      refine ⟨rfl, hlen ▸ halt, ?_, ?_⟩
      · rw [hread]
        exact haprev
      · have hrec := ih (some a) (nodeAt heap a).next hc2 hndx hpx hnx
        rw [hread]
        simpa using hrec

/-- A patch that does not change `key`/`value`/`timestamp` of the written
node leaves those fields unchanged at every index. -/
theorem nodeAt_patch_fields (heap : List Node) (x : Nat) (n : Node)
    (hkey : n.key = (nodeAt heap x).key) (hval : n.value = (nodeAt heap x).value)
    (hts : n.timestamp = (nodeAt heap x).timestamp) (j : Nat) :
    (nodeAt (setNode heap x n) j).key = (nodeAt heap j).key ∧
    (nodeAt (setNode heap x n) j).value = (nodeAt heap j).value ∧
    (nodeAt (setNode heap x n) j).timestamp = (nodeAt heap j).timestamp := by
  by_cases hj : x = j
  · subst hj
    by_cases hlt : x < heap.length
    · rw [nodeAt_set_self heap x n hlt]
      exact ⟨hkey, hval, hts⟩
    · rw [show setNode heap x n = heap from
        List.set_eq_of_length_le (Nat.le_of_not_lt hlt)]
      exact ⟨rfl, rfl, rfl⟩
  · rw [nodeAt_set_ne heap n hj]
    exact ⟨rfl, rfl, rfl⟩

/-- A patch that keeps the written node's `key` keeps every key. -/
theorem nodeAt_patch_key (heap : List Node) (x : Nat) (n : Node)
    (hkey : n.key = (nodeAt heap x).key) (j : Nat) :
    (nodeAt (setNode heap x n) j).key = (nodeAt heap j).key := by
  by_cases hj : x = j
  · subst hj
    by_cases hlt : x < heap.length
    · rw [nodeAt_set_self heap x n hlt]
      exact hkey
    · rw [show setNode heap x n = heap from
        List.set_eq_of_length_le (Nat.le_of_not_lt hlt)]
  · rw [nodeAt_set_ne heap n hj]

/-- Full characterisation of `remove` on a well-shaped chain
`l1 ++ i :: l2`: the chain loses `i`, the tail tracks the new last element,
and nothing else changes (the key index, the scalar fields of every node,
the heap size, capacity, expiration). -/
theorem remove_spec (s : LRUCache) (l1 l2 : List Nat) (i : Nat)
    (hc : isChain s.heap none s.head (l1 ++ i :: l2))
    (hnd : (l1 ++ i :: l2).Nodup)
    (htl : s.tail = (l1 ++ i :: l2).getLast?) :
    isChain (remove s i).heap none (remove s i).head (l1 ++ l2) ∧
    (remove s i).tail = (l1 ++ l2).getLast? ∧
    (remove s i).cache = s.cache ∧
    (remove s i).capacity = s.capacity ∧
    (remove s i).expiration = s.expiration ∧
    (remove s i).heap.length = s.heap.length ∧
    ∀ j, (nodeAt (remove s i).heap j).key = (nodeAt s.heap j).key ∧
      (nodeAt (remove s i).heap j).value = (nodeAt s.heap j).value ∧
      (nodeAt (remove s i).heap j).timestamp = (nodeAt s.heap j).timestamp := by
  have hilt : i < s.heap.length := (isChain_suffix hc).1
  have hc2 : isChain s.heap (some i) (nodeAt s.heap i).next l2 := (isChain_suffix hc).2
  have hPd : (nodeAt s.heap i).prev = l1.getLast? := by
    have hdec := isChain_prev_decomp hc
    cases hgl : l1.getLast? with
    | none => rw [hgl] at hdec; simpa using hdec
    | some a => rw [hgl] at hdec; simpa using hdec
  have hNd : (nodeAt s.heap i).next = l2.head? := isChain_head hc2
  rw [List.nodup_append] at hnd
  obtain ⟨hnd1, hnd2, hdisj⟩ := hnd
  have hia : i ∉ l1 := fun hmem => (List.disjoint_left.1 hdisj) hmem (by simp)
  have hib : i ∉ l2 := (List.nodup_cons.1 hnd2).1
  have hPmem : ∀ a, (nodeAt s.heap i).prev = some a → a ∈ l1 := by
    intro a ha
    rw [hPd] at ha
    have hmm : a ∈ l1.getLast? := by rw [ha]; simp [Option.mem_def]
    obtain ⟨hne, hx⟩ := List.mem_getLast?_eq_getLast hmm
    rw [hx]
    exact List.getLast_mem hne
  have hNmem : ∀ a, (nodeAt s.heap i).next = some a → a ∈ l2 := by
    intro a ha
    rw [hNd] at ha
    have hmm : a ∈ l2.head? := by rw [ha]; simp [Option.mem_def]
    exact List.mem_of_mem_head? hmm
  cases hP : (nodeAt s.heap i).prev with
  | none =>
    have hl1 : l1 = [] := by
      rw [hP] at hPd
      exact List.getLast?_eq_none_iff.1 hPd.symm
    subst hl1
    cases hN : (nodeAt s.heap i).next with
    | none =>
      have hl2 : l2 = [] := by
        rw [hN] at hNd
        exact List.head?_eq_none_iff.1 hNd.symm
      subst hl2
      have hrem : remove s i = { s with head := none, tail := none } := by
        simp [remove, hP, hN]
      rw [hrem]
      refine ⟨by simp [isChain_nil], by simp, rfl, rfl, rfl, rfl, fun j => ⟨rfl, rfl, rfl⟩⟩
    | some nx =>
      have hnxlt : nx < s.heap.length :=
        isChain_mem_lt hc nx (by simp [hNmem nx hN])
      have hrem : remove s i =
          { s with head := some nx, heap := setNode s.heap nx ({ nodeAt s.heap nx with prev := none }) } := by
        simp [remove, hP, hN]
      have hlen2 : (remove s i).heap.length = s.heap.length := by
        rw [hrem]; exact length_setNode s.heap nx _
      refine ⟨?_, ?_, by rw [hrem], by rw [hrem], by rw [hrem], hlen2, ?_⟩
      · have haux := @isChain_erase_aux s.heap (remove s i).heap i l2
          hlen2 ?_ ?_ ?_ [] none s.head hc (by simp [List.nodup_append, hnd1, hnd2, hdisj])
          (by intro j hj; simp) (by intro j hj; simp at hj)
        · rw [hrem] at haux ⊢
          simpa [hN] using haux
        · intro jp hjp
          rw [hP] at hjp
          exact absurd hjp (by simp)
        · intro jn hjn
          rw [hN] at hjn
          have hje : jn = nx := (Option.some_inj.1 hjn).symm
          subst hje
          rw [hrem, hP]
          exact nodeAt_set_self s.heap jn _ hnxlt
        · intro j hjp hjn
          rw [hN] at hjn
          have : nx ≠ j := fun hcon => hjn (by rw [hcon])
          rw [hrem]
          exact nodeAt_set_ne s.heap _ this
      · cases hl2 : l2 with
        | nil =>
          rw [hl2, List.head?_eq_none_iff.2 rfl] at hNd
          rw [hN] at hNd
          exact absurd hNd.symm (by simp)
        | cons y l2y =>
          rw [hrem]
          simp only [htl, hl2]
          simp [List.getLast?_cons_cons]
      · intro j
        rw [hrem]
        exact nodeAt_patch_fields s.heap nx
          ({ nodeAt s.heap nx with prev := none }) rfl rfl rfl j
  | some pp =>
    have hpplt : pp < s.heap.length :=
      isChain_mem_lt hc pp (by simp [hPmem pp hP])
    have hppi : pp ≠ i := by
      intro hcon
      exact hia (hcon ▸ hPmem pp hP)
    have hs1read : ∀ n : Node, nodeAt (setNode s.heap pp n) i = nodeAt s.heap i :=
      fun n => nodeAt_set_ne s.heap n hppi
    cases hN : (nodeAt s.heap i).next with
    | none =>
      have hl2 : l2 = [] := by
        rw [hN] at hNd
        exact List.head?_eq_none_iff.1 hNd.symm
      subst hl2
      have hrem : remove s i =
          { s with tail := some pp, heap := setNode s.heap pp ({ nodeAt s.heap pp with next := none }) } := by
        simp [remove, hP, hs1read, hN]
      have hlen2 : (remove s i).heap.length = s.heap.length := by
        rw [hrem]; exact length_setNode s.heap pp _
      refine ⟨?_, ?_, by rw [hrem], by rw [hrem], by rw [hrem], hlen2, ?_⟩
      · have haux := @isChain_erase_aux s.heap (remove s i).heap i []
          hlen2 ?_ ?_ ?_ l1 none s.head hc
          (by rw [List.nodup_append]; exact ⟨hnd1, hnd2, hdisj⟩)
          (by intro j hj; simp) (by intro j hj; rw [hN]; simp)
        · cases hl1 : l1 with
          | nil =>
            rw [hl1] at hPd
            rw [hP] at hPd
            simp at hPd
          | cons b l1y =>
            rw [hl1] at haux
            rw [hrem] at haux ⊢
            simpa using haux
        · intro jp hjp
          rw [hP] at hjp
          have hje : jp = pp := (Option.some_inj.1 hjp).symm
          subst hje
          rw [hrem, hN]
          exact nodeAt_set_self s.heap jp _ hpplt
        · intro jn hjn
          rw [hN] at hjn
          exact absurd hjn (by simp)
        · intro j hjp hjn
          rw [hP] at hjp
          have : pp ≠ j := fun hcon => hjp (by rw [hcon])
          rw [hrem]
          exact nodeAt_set_ne s.heap _ this
      · rw [hrem]
        show some pp = (l1 ++ []).getLast?
        rw [List.append_nil]
        rw [hP] at hPd
        exact hPd
      · intro j
        rw [hrem]
        exact nodeAt_patch_fields s.heap pp
          ({ nodeAt s.heap pp with next := none }) rfl rfl rfl j
    | some nx =>
      have hnxlt : nx < s.heap.length :=
        isChain_mem_lt hc nx (by simp [hNmem nx hN])
      have hnxi : nx ≠ i := by
        intro hcon
        exact hib (hcon ▸ hNmem nx hN)
      have hppnx : pp ≠ nx := by
        intro hcon
        exact (List.disjoint_left.1 hdisj) (hPmem pp hP)
          (by simp [hcon, hNmem nx hN])
      have hreadnx : ∀ n : Node, nodeAt (setNode s.heap pp n) nx = nodeAt s.heap nx :=
        fun n => nodeAt_set_ne s.heap n hppnx
      have hrem : remove s i =
          { s with heap := setNode (setNode s.heap pp ({ nodeAt s.heap pp with next := some nx })) nx ({ nodeAt s.heap nx with prev := some pp }) } := by
        simp [remove, hP, hs1read, hN, hreadnx]
      have hlen2 : (remove s i).heap.length = s.heap.length := by
        rw [hrem]
        rw [length_setNode, length_setNode]
      have hl1ne : l1 ≠ [] := by
        intro hcon
        rw [hcon] at hPd
        rw [hP] at hPd
        exact absurd hPd (by simp)
      have hl2ne : l2 ≠ [] := by
        intro hcon
        rw [hcon] at hNd
        rw [hN] at hNd
        exact absurd hNd (by simp)
      refine ⟨?_, ?_, by rw [hrem], by rw [hrem], by rw [hrem], hlen2, ?_⟩
      · have haux := @isChain_erase_aux s.heap (remove s i).heap i l2
          hlen2 ?_ ?_ ?_ l1 none s.head hc
          (by rw [List.nodup_append]; exact ⟨hnd1, hnd2, hdisj⟩)
          (by intro j hj; simp)
          (by
            intro j hj
            rw [hN]
            intro hcon
            rw [Option.some_inj] at hcon
            subst hcon
            exact (List.disjoint_left.1 hdisj) hj (by simp [hNmem nx hN]))
        · cases hl1 : l1 with
          | nil => exact absurd hl1 hl1ne
          | cons b l1y =>
            rw [hl1] at haux
            rw [hrem] at haux ⊢
            simpa using haux
        · intro jp hjp
          rw [hP] at hjp
          have hje : jp = pp := (Option.some_inj.1 hjp).symm
          subst hje
          rw [hrem, hN]
          rw [nodeAt_set_ne _ _ (Ne.symm hppnx)]
          exact nodeAt_set_self s.heap jp _ hpplt
        · intro jn hjn
          rw [hN] at hjn
          have hje : jn = nx := (Option.some_inj.1 hjn).symm
          subst hje
          rw [hrem, hP]
          refine nodeAt_set_self _ jn _ ?_
          rw [length_setNode]
          exact hnxlt
        · intro j hjp hjn
          rw [hP] at hjp
          rw [hN] at hjn
          have h1 : pp ≠ j := fun hcon => hjp (by rw [hcon])
          have h2 : nx ≠ j := fun hcon => hjn (by rw [hcon])
          rw [hrem]
          rw [nodeAt_set_ne _ _ h2]
          exact nodeAt_set_ne _ _ h1
      · rw [hrem]
        show s.tail = (l1 ++ l2).getLast?
        rw [htl]
        rw [List.getLast?_append, List.getLast?_append]
        cases hl2 : l2 with
        | nil => exact absurd hl2 hl2ne
        | cons y l2y =>
          simp [List.getLast?_cons_cons]
      · intro j
        rw [hrem]
        have hstep1 := nodeAt_patch_fields s.heap pp
          ({ nodeAt s.heap pp with next := some nx }) rfl rfl rfl j
        have hstep2 := nodeAt_patch_fields
          (setNode s.heap pp ({ nodeAt s.heap pp with next := some nx })) nx
          ({ nodeAt s.heap nx with prev := some pp }) ?_ ?_ ?_ j
        · exact ⟨hstep2.1.trans hstep1.1, hstep2.2.1.trans hstep1.2.1,
            hstep2.2.2.trans hstep1.2.2⟩
        · rw [nodeAt_set_ne _ _ hppnx]
        · rw [nodeAt_set_ne _ _ hppnx]
        · rw [nodeAt_set_ne _ _ hppnx]

/-- Full characterisation of `addToFront` of a node `i` not currently on the
chain: the chain gains `i` at the front and nothing else changes. -/
theorem addToFront_spec (s : LRUCache) (l : List Nat) (i : Nat)
    (hc : isChain s.heap none s.head l)
    (htl : s.tail = l.getLast?)
    (hnd : l.Nodup)
    (hilt : i < s.heap.length)
    (hni : i ∉ l) :
    isChain (addToFront s i).heap none (addToFront s i).head (i :: l) ∧
    (addToFront s i).head = some i ∧
    (addToFront s i).tail = (i :: l).getLast? ∧
    (addToFront s i).cache = s.cache ∧
    (addToFront s i).capacity = s.capacity ∧
    (addToFront s i).expiration = s.expiration ∧
    (addToFront s i).heap.length = s.heap.length ∧
    ∀ j, (nodeAt (addToFront s i).heap j).key = (nodeAt s.heap j).key ∧
      (nodeAt (addToFront s i).heap j).value = (nodeAt s.heap j).value ∧
      (nodeAt (addToFront s i).heap j).timestamp = (nodeAt s.heap j).timestamp := by
  cases hh : s.head with
  | none =>
    have hl : l = [] := by
      have := isChain_head hc
      rw [hh] at this
      exact (List.head?_eq_none_iff.1 this.symm)
    subst hl
    have htln : s.tail = none := by simpa using htl
    have hadd : addToFront s i =
        { s with heap := setNode s.heap i ({ nodeAt s.heap i with prev := none, next := none }), head := some i, tail := some i } := by
      simp [addToFront, hh, htln]
    rw [hadd]
    refine ⟨?_, rfl, by simp, rfl, rfl, rfl, by simp [length_setNode], ?_⟩
    · rw [isChain_cons]
      have hself := nodeAt_set_self s.heap i
        ({ nodeAt s.heap i with prev := none, next := none }) hilt
      refine ⟨rfl, by simpa [length_setNode] using hilt, ?_, ?_⟩
      · rw [hself]
      · rw [hself]
        rw [isChain_nil]
    · intro j
      exact nodeAt_patch_fields s.heap i
        ({ nodeAt s.heap i with prev := none, next := none }) rfl rfl rfl j
  | some h0 =>
    obtain ⟨l', rfl⟩ : ∃ l', l = h0 :: l' := by
      have := isChain_head hc
      rw [hh] at this
      cases l with
      | nil => simp at this
      | cons a l' =>
        rw [List.head?_cons] at this
        exact ⟨l', by rw [Option.some_inj.1 this]⟩
    have hih0 : i ≠ h0 := by
      intro hcon
      exact hni (by simp [hcon])
    have htlsome : ∃ t, s.tail = some t := by
      rw [htl]
      cases hgl : (h0 :: l').getLast? with
      | none => simp at hgl
      | some t => exact ⟨t, rfl⟩
    obtain ⟨t, htt⟩ := htlsome
    have hreadh0 : ∀ n : Node, nodeAt (setNode s.heap i n) h0 = nodeAt s.heap h0 :=
      fun n => nodeAt_set_ne s.heap n hih0
    have hadd : addToFront s i =
        { s with heap := setNode (setNode s.heap i ({ nodeAt s.heap i with prev := none, next := some h0 })) h0 ({ nodeAt s.heap h0 with prev := some i }), head := some i } := by
      simp [addToFront, hh, htt, hreadh0]
    have hc0 := hc
    rw [isChain_cons] at hc0
    obtain ⟨_, hh0lt, hh0prev, hc1⟩ := hc0
    have hreadi : nodeAt (addToFront s i).heap i =
        { nodeAt s.heap i with prev := none, next := some h0 } := by
      rw [hadd]
      rw [nodeAt_set_ne _ _ (Ne.symm hih0)]
      exact nodeAt_set_self s.heap i _ hilt
    have hreadh0f : nodeAt (addToFront s i).heap h0 =
        { nodeAt s.heap h0 with prev := some i } := by
      rw [hadd]
      have : nodeAt (setNode s.heap i ({ nodeAt s.heap i with prev := none, next := some h0 })) h0 = nodeAt s.heap h0 := hreadh0 _
      rw [← this]
      refine nodeAt_set_self _ h0 _ ?_
      rw [length_setNode]
      exact hh0lt
    have hlen2 : (addToFront s i).heap.length = s.heap.length := by
      rw [hadd, length_setNode, length_setNode]
    refine ⟨?_, by rw [hadd], ?_, by rw [hadd], by rw [hadd], by rw [hadd], hlen2, ?_⟩
    · rw [isChain_cons]
      refine ⟨by rw [hadd], hlen2 ▸ hilt, by rw [hreadi], ?_⟩
      rw [hreadi]
      show isChain (addToFront s i).heap (some i) (some h0) (h0 :: l')
      rw [isChain_cons]
      refine ⟨rfl, hlen2 ▸ hh0lt, by rw [hreadh0f], ?_⟩
      rw [hreadh0f]
      show isChain (addToFront s i).heap (some h0) (nodeAt s.heap h0).next l'
      refine isChain_congr hlen2 ?_ hc1
      intro j hj
      have hji : j ≠ i := by
        intro hcon
        exact hni (by simp [← hcon, hj])
      have hjh0 : j ≠ h0 := by
        intro hcon
        exact (List.nodup_cons.1 hnd).1 (hcon ▸ hj)
      rw [hadd]
      rw [nodeAt_set_ne _ _ (Ne.symm hjh0)]
      exact nodeAt_set_ne _ _ (Ne.symm hji)
    · rw [hadd]
      show s.tail = (i :: h0 :: l').getLast?
      rw [htl]
      rw [List.getLast?_cons_cons]
    · intro j
      rw [hadd]
      have hstep1 := nodeAt_patch_fields s.heap i
        ({ nodeAt s.heap i with prev := none, next := some h0 }) rfl rfl rfl j
      have hstep2 := nodeAt_patch_fields
        (setNode s.heap i ({ nodeAt s.heap i with prev := none, next := some h0 })) h0
        ({ nodeAt s.heap h0 with prev := some i }) ?_ ?_ ?_ j
      · exact ⟨hstep2.1.trans hstep1.1, hstep2.2.1.trans hstep1.2.1,
          hstep2.2.2.trans hstep1.2.2⟩
      · rw [hreadh0 _]
      · rw [hreadh0 _]
      · rw [hreadh0 _]

theorem chainKeys_congr {h1 h2 : List Node}
    (hk : ∀ j, (nodeAt h2 j).key = (nodeAt h1 j).key) (l : List Nat) :
    chainKeys h2 l = chainKeys h1 l := by
  unfold chainKeys
  exact List.map_congr_left (fun j _ => hk j)

/-- Derived facts packaged with a well-formed state. -/
theorem WfWith.nodup {s : LRUCache} {l : List Nat} (W : WfWith s l) : l.Nodup :=
  W.keys_nodup.of_map

theorem WfWith.cache_keys_nodup {s : LRUCache} {l : List Nat} (W : WfWith s l) :
    (s.cache.map Prod.fst).Nodup := by
  have hperm := W.cache_perm.map Prod.fst
  rw [hperm.nodup_iff]
  have : (l.map (fun i => ((nodeAt s.heap i).key, i))).map Prod.fst = chainKeys s.heap l := by
    rw [List.map_map]
    rfl
  rw [this]
  exact W.keys_nodup

theorem WfWith.length_cache {s : LRUCache} {l : List Nat} (W : WfWith s l) :
    s.cache.length = l.length := by
  have := W.cache_perm.length_eq
  simpa using this

theorem WfWith.mem_cache_iff {s : LRUCache} {l : List Nat} (W : WfWith s l)
    {k : Int} {i : Nat} :
    (k, i) ∈ s.cache ↔ i ∈ l ∧ (nodeAt s.heap i).key = k := by
  rw [W.cache_perm.mem_iff, List.mem_map]
  constructor
  · rintro ⟨j, hj, hje⟩
    have h1 : (nodeAt s.heap j).key = k := congrArg Prod.fst hje
    have h2 : j = i := congrArg Prod.snd hje
    subst h2
    exact ⟨hj, h1⟩
  · rintro ⟨hi, hk⟩
    exact ⟨i, hi, by rw [hk]⟩

theorem WfWith.lookup_none_iff {s : LRUCache} {l : List Nat} (W : WfWith s l)
    {k : Int} :
    cacheLookup s.cache k = none ↔ ∀ j ∈ l, (nodeAt s.heap j).key ≠ k := by
  rw [cacheLookup_eq_none]
  constructor
  · intro hnone j hj hk
    exact hnone ((nodeAt s.heap j).key, j) (W.mem_cache_iff.2 ⟨hj, rfl⟩) hk
  · intro hall p hp hk
    obtain ⟨hj, hkey⟩ := W.mem_cache_iff.1 (by
      have : p = (p.1, p.2) := rfl
      rw [this] at hp
      exact hp)
    exact hall p.2 hj (by rw [hkey, hk])

/-- Full characterisation of `evict`: the key's node (if any) leaves both the
index and the chain; everything else is untouched.  When the key is absent
the state is unchanged (the filter removes nothing). -/
theorem evict_spec (s : LRUCache) (l : List Nat) (k : Int) (W : WfWith s l) :
    WfWith (evict s k) (l.filter (fun j => !((nodeAt s.heap j).key == k))) ∧
    (evict s k).cache = cacheErase s.cache k ∧
    (evict s k).capacity = s.capacity ∧
    (evict s k).expiration = s.expiration ∧
    (evict s k).heap.length = s.heap.length ∧
    ∀ j, (nodeAt (evict s k).heap j).key = (nodeAt s.heap j).key ∧
      (nodeAt (evict s k).heap j).value = (nodeAt s.heap j).value ∧
      (nodeAt (evict s k).heap j).timestamp = (nodeAt s.heap j).timestamp := by
  cases hlk : cacheLookup s.cache k with
  | none =>
    have hnok : ∀ j ∈ l, (nodeAt s.heap j).key ≠ k := W.lookup_none_iff.1 hlk
    have hfil : l.filter (fun j => !((nodeAt s.heap j).key == k)) = l := by
      rw [List.filter_eq_self]
      intro j hj
      simpa using hnok j hj
    have herase : cacheErase s.cache k = s.cache :=
      cacheErase_eq_of_not_mem (cacheLookup_eq_none.1 hlk)
    have hev : evict s k = s := by
      simp [evict, hlk]
    rw [hev, hfil, herase]
    exact ⟨W, rfl, rfl, rfl, rfl, fun j => ⟨rfl, rfl, rfl⟩⟩
  | some i =>
    have hmem : (k, i) ∈ s.cache := cacheLookup_mem hlk
    obtain ⟨hil, hkey⟩ := W.mem_cache_iff.1 hmem
    obtain ⟨m1, m2, rfl⟩ := List.append_of_mem hil
    have hnd : (m1 ++ i :: m2).Nodup := W.nodup
    have hknd := W.keys_nodup
    have hfil : (m1 ++ i :: m2).filter (fun j => !((nodeAt s.heap j).key == k)) =
        m1 ++ m2 := by
      have hothers : ∀ j ∈ m1 ++ m2, (nodeAt s.heap j).key ≠ k := by
        intro j hj hk2
        have hji : j = i := by
          refine List.inj_on_of_nodup_map hknd ?_ hil ?_
          · rcases List.mem_append.1 hj with h | h
            · exact List.mem_append.2 (Or.inl h)
            · exact List.mem_append.2 (Or.inr (by simp [h]))
          · rw [hk2, hkey]
        subst hji
        rw [List.nodup_append] at hnd
        rcases List.mem_append.1 hj with h | h
        · exact (List.disjoint_left.1 hnd.2.2) h (by simp)
        · exact (List.nodup_cons.1 hnd.2.1).1 h
      have hkeyb : ((nodeAt s.heap i).key == k) = true := by simpa using hkey
      have h1 : m1.filter (fun j => !((nodeAt s.heap j).key == k)) = m1 := by
        rw [List.filter_eq_self]
        intro j hj
        simpa using hothers j (List.mem_append.2 (Or.inl hj))
      have h2 : m2.filter (fun j => !((nodeAt s.heap j).key == k)) = m2 := by
        rw [List.filter_eq_self]
        intro j hj
        simpa using hothers j (List.mem_append.2 (Or.inr hj))
      rw [List.filter_append, List.filter_cons]
      simp [hkeyb, h1, h2]
    have hev : evict s k = remove { s with cache := cacheErase s.cache k } i := by
      simp [evict, hlk]
    have hrs := remove_spec { s with cache := cacheErase s.cache k } m1 m2 i
      W.chain hnd W.tail_eq
    rw [← hev] at hrs
    obtain ⟨hch, htl, hca, hcap, hexp, hlen, hflds⟩ := hrs
    rw [hfil]
    have hkeq : ∀ j, (nodeAt (evict s k).heap j).key = (nodeAt s.heap j).key :=
      fun j => (hflds j).1
    refine ⟨⟨hch, htl, ?_, ?_⟩, by rw [hca], hcap, hexp, hlen, hflds⟩
    · rw [chainKeys_congr hkeq]
      have hsub : (m1 ++ m2).Sublist (m1 ++ i :: m2) :=
        List.Sublist.append_left (List.sublist_cons_self i m2) m1
      exact hknd.sublist (List.Sublist.map _ hsub)
    · rw [hca]
      rw [cacheErase_eq_filter W.cache_keys_nodup]
      have hpf := W.cache_perm.filter (fun p => !(p.1 == k))
      refine hpf.trans ?_
      have hmap : (m1 ++ i :: m2).map (fun j => ((nodeAt s.heap j).key, j)) =
          m1.map (fun j => ((nodeAt s.heap j).key, j)) ++
            ((nodeAt s.heap i).key, i) ::
              m2.map (fun j => ((nodeAt s.heap j).key, j)) := by
        simp
      rw [hmap, hkey]
      have hothers2 : ∀ j ∈ m1 ++ m2, (nodeAt s.heap j).key ≠ k := by
        intro j hj hk2
        have hji : j = i := by
          refine List.inj_on_of_nodup_map hknd ?_ hil ?_
          · rcases List.mem_append.1 hj with h | h
            · exact List.mem_append.2 (Or.inl h)
            · exact List.mem_append.2 (Or.inr (by simp [h]))
          · rw [hk2, hkey]
        subst hji
        rw [List.nodup_append] at hnd
        rcases List.mem_append.1 hj with h | h
        · exact (List.disjoint_left.1 hnd.2.2) h (by simp)
        · exact (List.nodup_cons.1 hnd.2.1).1 h
      have h1 : (m1.map (fun j => ((nodeAt s.heap j).key, j))).filter
          (fun p => !(p.1 == k)) = m1.map (fun j => ((nodeAt s.heap j).key, j)) := by
        rw [List.filter_eq_self]
        intro p hp
        obtain ⟨j, hj, rfl⟩ := List.mem_map.1 hp
        simpa using hothers2 j (List.mem_append.2 (Or.inl hj))
      have h2 : (m2.map (fun j => ((nodeAt s.heap j).key, j))).filter
          (fun p => !(p.1 == k)) = m2.map (fun j => ((nodeAt s.heap j).key, j)) := by
        rw [List.filter_eq_self]
        intro p hp
        obtain ⟨j, hj, rfl⟩ := List.mem_map.1 hp
        simpa using hothers2 j (List.mem_append.2 (Or.inr hj))
      rw [List.filter_append, List.filter_cons]
      have hmapeq : (m1 ++ m2).map (fun j => ((nodeAt (evict s k).heap j).key, j)) =
          (m1 ++ m2).map (fun j => ((nodeAt s.heap j).key, j)) :=
        List.map_congr_left (fun j _ => by rw [hkeq j])
      rw [hmapeq]
      simp [h1, h2]

/-- Applying `moveToFront` to a chain member: the chain is reordered to put `i`
first; the key index and all node payloads are untouched. -/
theorem moveToFront_spec (s : LRUCache) (m1 m2 : List Nat) (i : Nat)
    (W : WfWith s (m1 ++ i :: m2)) :
    WfWith (moveToFront s i) (i :: (m1 ++ m2)) ∧
    (moveToFront s i).cache = s.cache ∧
    (moveToFront s i).capacity = s.capacity ∧
    (moveToFront s i).expiration = s.expiration ∧
    (moveToFront s i).heap.length = s.heap.length ∧
    ∀ j, (nodeAt (moveToFront s i).heap j).key = (nodeAt s.heap j).key ∧
      (nodeAt (moveToFront s i).heap j).value = (nodeAt s.heap j).value ∧
      (nodeAt (moveToFront s i).heap j).timestamp = (nodeAt s.heap j).timestamp := by
  simp only [moveToFront]
  have hnd : (m1 ++ i :: m2).Nodup := W.nodup
  obtain ⟨hch1, htl1, hca1, hcap1, hexp1, hlen1, hflds1⟩ :=
    remove_spec s m1 m2 i W.chain hnd W.tail_eq
  have hndx : (m1 ++ m2).Nodup := by
    rw [List.nodup_append] at hnd ⊢
    exact ⟨hnd.1, (List.nodup_cons.1 hnd.2.1).2,
      fun a ha => fun hb => (List.disjoint_left.1 hnd.2.2) ha (by simp [hb])⟩
  have hii : i ∉ m1 ++ m2 := by
    rw [List.nodup_append] at hnd
    intro hcon
    rcases List.mem_append.1 hcon with h | h
    · exact (List.disjoint_left.1 hnd.2.2) h (by simp)
    · exact (List.nodup_cons.1 hnd.2.1).1 h
  have hilt : i < (remove s i).heap.length := by
    rw [hlen1]
    exact isChain_mem_lt W.chain i (by simp)
  obtain ⟨hch2, hhd2, htl2, hca2, hcap2, hexp2, hlen2, hflds2⟩ :=
    addToFront_spec (remove s i) (m1 ++ m2) i hch1 htl1 hndx hilt hii
  have hfall : ∀ j,
      (nodeAt (addToFront (remove s i) i).heap j).key = (nodeAt s.heap j).key ∧
      (nodeAt (addToFront (remove s i) i).heap j).value = (nodeAt s.heap j).value ∧
      (nodeAt (addToFront (remove s i) i).heap j).timestamp = (nodeAt s.heap j).timestamp := by
    intro j
    have h2 := hflds2 j
    have h1 := hflds1 j
    exact ⟨h2.1.trans h1.1, h2.2.1.trans h1.2.1, h2.2.2.trans h1.2.2⟩
  have hperm : (i :: (m1 ++ m2)).Perm (m1 ++ i :: m2) := List.perm_middle.symm
  refine ⟨⟨hch2, htl2, ?_, ?_⟩, hca2.trans hca1, hcap2.trans hcap1,
    hexp2.trans hexp1, hlen2.trans hlen1, hfall⟩
  · rw [chainKeys_congr (fun j => (hfall j).1)]
    have : (chainKeys s.heap (i :: (m1 ++ m2))).Perm (chainKeys s.heap (m1 ++ i :: m2)) :=
      hperm.map _
    rw [this.nodup_iff]
    exact W.keys_nodup
  · rw [hca2, hca1]
    refine W.cache_perm.trans ?_
    have hmc : (chainKeys s.heap (m1 ++ i :: m2)).Nodup := W.keys_nodup
    have : ((m1 ++ i :: m2).map (fun j => ((nodeAt s.heap j).key, j))).Perm
        ((i :: (m1 ++ m2)).map (fun j => ((nodeAt s.heap j).key, j))) :=
      (hperm.map _).symm
    refine this.trans ?_
    have hmapeq : (i :: (m1 ++ m2)).map
        (fun j => ((nodeAt (addToFront (remove s i) i).heap j).key, j)) =
        (i :: (m1 ++ m2)).map (fun j => ((nodeAt s.heap j).key, j)) :=
      List.map_congr_left (fun j _ => by rw [(hfall j).1])
    rw [hmapeq]

/-- Chains only read the link fields, so any update preserving `prev` and
`next` of the members preserves the chain. -/
theorem isChain_congr_links {heap heap2 : List Node} (hlen : heap2.length = heap.length) :
    ∀ {l : List Nat} {p h : Option Nat},
      (∀ j ∈ l, (nodeAt heap2 j).prev = (nodeAt heap j).prev ∧
        (nodeAt heap2 j).next = (nodeAt heap j).next) →
      isChain heap p h l → isChain heap2 p h l := by
  intro l
  induction l with
  | nil => intro p h _ hc; exact hc
  | cons a l ih =>
    intro p h hread hc
    rw [isChain_cons] at hc ⊢
    have ha := hread a (by simp)
    refine ⟨hc.1, hlen ▸ hc.2.1, ha.1.trans hc.2.2.1, ?_⟩
    rw [ha.2]
    exact ih (fun j hj => hread j (by simp [hj])) hc.2.2.2

/-- Well-formedness transports along changes that keep the links of chain
members, all keys, the ends and the key index. -/
theorem WfWith_congr {s1 s2 : LRUCache} {l : List Nat} (W : WfWith s1 l)
    (hlen : s2.heap.length = s1.heap.length)
    (hlinks : ∀ j ∈ l, (nodeAt s2.heap j).prev = (nodeAt s1.heap j).prev ∧
      (nodeAt s2.heap j).next = (nodeAt s1.heap j).next)
    (hkeys : ∀ j, (nodeAt s2.heap j).key = (nodeAt s1.heap j).key)
    (hhd : s2.head = s1.head) (htl : s2.tail = s1.tail)
    (hca : s2.cache = s1.cache) : WfWith s2 l := by
  refine ⟨?_, ?_, ?_, ?_⟩
  · rw [hhd]
    exact isChain_congr_links hlen hlinks W.chain
  · rw [htl]
    exact W.tail_eq
  · rw [chainKeys_congr hkeys]
    exact W.keys_nodup
  · rw [hca]
    have hmapeq : l.map (fun i => ((nodeAt s2.heap i).key, i)) =
        l.map (fun i => ((nodeAt s1.heap i).key, i)) :=
      List.map_congr_left (fun j _ => by rw [hkeys j])
    rw [hmapeq]
    exact W.cache_perm

/-- In a well-keyed chain, filtering away the one index holding key `k`
drops exactly that index. -/
theorem filter_unique_key {heap : List Node} {m1 m2 : List Nat} {i : Nat} {k : Int}
    (hknd : (chainKeys heap (m1 ++ i :: m2)).Nodup)
    (hnd : (m1 ++ i :: m2).Nodup)
    (hkey : (nodeAt heap i).key = k) :
    (m1 ++ i :: m2).filter (fun j => !((nodeAt heap j).key == k)) = m1 ++ m2 := by
  have hil : i ∈ m1 ++ i :: m2 := by simp
  have hothers : ∀ j ∈ m1 ++ m2, (nodeAt heap j).key ≠ k := by
    intro j hj hk2
    have hji : j = i := by
      refine List.inj_on_of_nodup_map hknd ?_ hil ?_
      · rcases List.mem_append.1 hj with h | h
        · exact List.mem_append.2 (Or.inl h)
        · exact List.mem_append.2 (Or.inr (by simp [h]))
      · rw [hk2, hkey]
    subst hji
    rw [List.nodup_append] at hnd
    rcases List.mem_append.1 hj with h | h
    · exact (List.disjoint_left.1 hnd.2.2) h (by simp)
    · exact (List.nodup_cons.1 hnd.2.1).1 h
  have hkeyb : ((nodeAt heap i).key == k) = true := by simpa using hkey
  have h1 : m1.filter (fun j => !((nodeAt heap j).key == k)) = m1 := by
    rw [List.filter_eq_self]
    intro j hj
    simpa using hothers j (List.mem_append.2 (Or.inl hj))
  have h2 : m2.filter (fun j => !((nodeAt heap j).key == k)) = m2 := by
    rw [List.filter_eq_self]
    intro j hj
    simpa using hothers j (List.mem_append.2 (Or.inr hj))
  rw [List.filter_append, List.filter_cons]
  simp [hkeyb, h1, h2]

theorem walkFrom_eq_of_chain {heap : List Node} :
    ∀ {l : List Nat} {fuel : Nat} {p h : Option Nat}, isChain heap p h l →
      l.length ≤ fuel → walkFrom heap fuel h = l := by
  intro l
  induction l with
  | nil =>
    intro fuel p h hc _
    rw [isChain_nil] at hc
    subst hc
    cases fuel <;> rfl
  | cons a l ih =>
    intro fuel p h hc hf
    rw [isChain_cons] at hc
    obtain ⟨rfl, _, _, hc4⟩ := hc
    cases fuel with
    | zero => simp at hf
    | succ f =>
      rw [walkFrom]
      exact congrArg (a :: ·) (ih hc4 (by simpa using hf))

/-- On a well-formed state the executable walk recovers the chain list. -/
theorem walk_eq {s : LRUCache} {l : List Nat} (W : WfWith s l) : walk s = l := by
  refine walkFrom_eq_of_chain W.chain ?_
  have hnd : l.Nodup := W.nodup
  have hlt : ∀ x ∈ l, x < s.heap.length := isChain_mem_lt W.chain
  have hlen : l.length ≤ s.heap.length := by
    have h1 : l.toFinset.card = l.length := List.toFinset_card_of_nodup hnd
    have h2 : l.toFinset ⊆ Finset.range s.heap.length := by
      intro x hx
      rw [Finset.mem_range]
      exact hlt x (List.mem_toFinset.1 hx)
    have h3 := Finset.card_le_card h2
    rw [h1, Finset.card_range] at h3
    exact h3
  omega

theorem absKeys (s : LRUCache) (l : List Nat) :
    (absList s l).map Prod.fst = chainKeys s.heap l := by
  unfold absList chainKeys
  rw [List.map_map]
  rfl

theorem mem_chainKeys {heap : List Node} {l : List Nat} {k : Int} :
    k ∈ chainKeys heap l ↔ ∃ j ∈ l, (nodeAt heap j).key = k := by
  unfold chainKeys
  simp [List.mem_map]

theorem contains_absKeys_true {s : LRUCache} {l : List Nat} {k : Int}
    (h : ∃ j ∈ l, (nodeAt s.heap j).key = k) :
    ((absList s l).map Prod.fst).contains k = true := by
  rw [absKeys, List.contains_iff_exists_mem_beq]
  obtain ⟨j, hj, hk⟩ := h
  exact ⟨k, mem_chainKeys.2 ⟨j, hj, hk⟩, by simp⟩

theorem contains_absKeys_false {s : LRUCache} {l : List Nat} {k : Int}
    (h : ∀ j ∈ l, (nodeAt s.heap j).key ≠ k) :
    ((absList s l).map Prod.fst).contains k = false := by
  rw [absKeys]
  rw [Bool.eq_false_iff]
  intro hcon
  rw [List.contains_iff_exists_mem_beq] at hcon
  obtain ⟨x, hx, hbeq⟩ := hcon
  obtain ⟨j, hj, hk⟩ := mem_chainKeys.1 hx
  rw [eq_of_beq hbeq] at h
  exact h j hj hk

/-- Correspondence of `Get` with its abstract model. -/
theorem Get_spec (s : LRUCache) (l : List Nat) (now k : Int) (W : WfWith s l) :
    (Get s now k).2.capacity = s.capacity ∧
    (Get s now k).2.expiration = s.expiration ∧
    ∃ l2, WfWith (Get s now k).2 l2 ∧
      absList (Get s now k).2 l2 = modelGet s.expiration now k (absList s l) ∧
      l2.length ≤ l.length := by
  cases hlk : cacheLookup s.cache k with
  | none =>
    have hget : Get s now k = (-1, s) := by simp [Get, hlk]
    have hcf : ((absList s l).map Prod.fst).contains k = false :=
      contains_absKeys_false (W.lookup_none_iff.1 hlk)
    rw [hget]
    refine ⟨rfl, rfl, l, W, ?_, Nat.le_refl _⟩
    rw [modelGet, hcf]
    simp
  | some i =>
    have hmem : (k, i) ∈ s.cache := cacheLookup_mem hlk
    obtain ⟨hil, hkey⟩ := W.mem_cache_iff.1 hmem
    have hilt : i < s.heap.length := isChain_mem_lt W.chain i hil
    have hct : ((absList s l).map Prod.fst).contains k = true :=
      contains_absKeys_true ⟨i, hil, hkey⟩
    have hs1 : nodeAt (setNode s.heap i ({ nodeAt s.heap i with timestamp := now })) i
        = { nodeAt s.heap i with timestamp := now } := nodeAt_set_self _ _ _ hilt
    have W1 : WfWith { s with heap := setNode s.heap i ({ nodeAt s.heap i with timestamp := now }) } l := by
      refine WfWith_congr W (length_setNode _ _ _) ?_ ?_ rfl rfl rfl
      · intro j hj
        by_cases hji : j = i
        · subst hji
          rw [hs1]
          exact ⟨rfl, rfl⟩
        · rw [nodeAt_set_ne _ _ (fun hcon => hji hcon.symm)]
          exact ⟨rfl, rfl⟩
      · intro j
        exact nodeAt_patch_key s.heap i
          ({ nodeAt s.heap i with timestamp := now }) rfl j
    have hfields1 : ∀ j, j ≠ i →
        nodeAt (setNode s.heap i ({ nodeAt s.heap i with timestamp := now })) j
          = nodeAt s.heap j :=
      fun j hj => nodeAt_set_ne _ _ (fun hcon => hj hcon.symm)
    by_cases hcond : now - now > s.expiration
    · have hget : Get s now k =
          (-1, evict { s with heap := setNode s.heap i ({ nodeAt s.heap i with timestamp := now }) } k) := by
        simp only [Get, hlk, hs1]
        rw [if_pos hcond]
      obtain ⟨Wev, hcaev, hcapev, hexpev, hlenev, hfldsev⟩ :=
        evict_spec _ l k W1
      rw [hget]
      have hfilc : l.filter (fun j =>
          !((nodeAt { s with heap := setNode s.heap i ({ nodeAt s.heap i with timestamp := now }) }.heap j).key == k)) =
          l.filter (fun j => !((nodeAt s.heap j).key == k)) := by
        refine List.filter_congr ?_
        intro j _
        rw [nodeAt_patch_key s.heap i
          ({ nodeAt s.heap i with timestamp := now }) rfl j]
      rw [hfilc] at Wev
      refine ⟨hcapev, hexpev, l.filter (fun j => !((nodeAt s.heap j).key == k)),
        Wev, ?_, List.length_filter_le _ l⟩
      rw [modelGet, hct]
      simp only [if_true, if_pos hcond]
      unfold absList
      rw [List.filter_map]
      have hcong : ∀ j ∈ l.filter (fun j => !((nodeAt s.heap j).key == k)),
          ((nodeAt (evict { s with heap := setNode s.heap i ({ nodeAt s.heap i with timestamp := now }) } k).heap j).key,
            (nodeAt (evict { s with heap := setNode s.heap i ({ nodeAt s.heap i with timestamp := now }) } k).heap j).timestamp)
          = ((nodeAt s.heap j).key, (nodeAt s.heap j).timestamp) := by
        intro j hj
        have hjk : ((nodeAt s.heap j).key == k) = false := by
          have := List.of_mem_filter hj
          simpa using this
        have hji : j ≠ i := by
          intro hcon
          subst hcon
          rw [show ((nodeAt s.heap j).key == k) = true from by simpa using hkey] at hjk
          exact absurd hjk (by simp)
        have h1 := hfldsev j
        rw [(h1.1.trans (congrArg Node.key (hfields1 j hji))),
          (h1.2.2.trans (congrArg Node.timestamp (hfields1 j hji)))]
      rw [List.map_congr_left hcong]
      rfl
    · obtain ⟨m1, m2, rfl⟩ := List.append_of_mem hil
      have hget : Get s now k =
          ((nodeAt s.heap i).value,
            moveToFront { s with heap := setNode s.heap i ({ nodeAt s.heap i with timestamp := now }) } i) := by
        simp only [Get, hlk, hs1]
        rw [if_neg hcond]
      obtain ⟨Wmv, hcamv, hcapmv, hexpmv, hlenmv, hfldsmv⟩ :=
        moveToFront_spec _ m1 m2 i W1
      rw [hget]
      refine ⟨hcapmv, hexpmv, i :: (m1 ++ m2), Wmv, ?_, by simp; omega⟩
      rw [modelGet, hct]
      simp only [if_true, if_neg hcond]
      have hfil : (absList s (m1 ++ i :: m2)).filter (fun p => !(p.1 == k)) =
          absList s (m1 ++ m2) := by
        unfold absList
        rw [List.filter_map]
        have hpred : ((fun p : Int × Int => !(p.1 == k)) ∘
            (fun i => ((nodeAt s.heap i).key, (nodeAt s.heap i).timestamp))) =
            (fun j => !((nodeAt s.heap j).key == k)) := rfl
        rw [hpred]
        rw [filter_unique_key W.keys_nodup W.nodup hkey]
      rw [hfil]
      unfold absList
      rw [List.map_cons]
      have hii : i ∉ m1 ++ m2 := by
        have hnd := W.nodup
        rw [List.nodup_append] at hnd
        intro hcon
        rcases List.mem_append.1 hcon with h | h
        · exact (List.disjoint_left.1 hnd.2.2) h (by simp)
        · exact (List.nodup_cons.1 hnd.2.1).1 h
      have hheadeq : ((nodeAt (moveToFront { s with heap := setNode s.heap i ({ nodeAt s.heap i with timestamp := now }) } i).heap i).key,
          (nodeAt (moveToFront { s with heap := setNode s.heap i ({ nodeAt s.heap i with timestamp := now }) } i).heap i).timestamp) = (k, now) := by
        have h1 := hfldsmv i
        rw [h1.1.trans (congrArg Node.key hs1), h1.2.2.trans (congrArg Node.timestamp hs1)]
        simp [hkey]
      rw [hheadeq]
      refine congrArg ((k, now) :: ·) ?_
      refine List.map_congr_left ?_
      intro j hj
      have hji : j ≠ i := fun hcon => hii (hcon ▸ hj)
      have h1 := hfldsmv j
      rw [h1.1.trans (congrArg Node.key (hfields1 j hji)),
        h1.2.2.trans (congrArg Node.timestamp (hfields1 j hji))]

/-- Allocating a fresh node for a new key, registering it in the index and
splicing it to the front (the shared tail of both `Set` insertion paths). -/
theorem insert_spec (s1 s2 : LRUCache) (l1 : List Nat) (now k v : Int) (i : Nat)
    (W1 : WfWith s1 l1)
    (hnk : ∀ j ∈ l1, (nodeAt s1.heap j).key ≠ k)
    (hi : i = s1.heap.length)
    (hs2 : s2 = { s1 with
      heap := s1.heap ++ [{ key := k, value := v, timestamp := now, prev := none, next := none }],
      cache := cacheInsert s1.cache k i }) :
    WfWith (addToFront s2 i) (i :: l1) ∧
    (addToFront s2 i).capacity = s1.capacity ∧
    (addToFront s2 i).expiration = s1.expiration ∧
    absList (addToFront s2 i) (i :: l1) = (k, now) :: absList s1 l1 := by
  subst hi
  subst hs2
  have hmemlt : ∀ j ∈ l1, j < s1.heap.length := isChain_mem_lt W1.chain
  have hnotin : s1.heap.length ∉ l1 := by
    intro hcon
    exact absurd (hmemlt _ hcon) (by omega)
  have hreadnew : nodeAt (s1.heap ++
      [{ key := k, value := v, timestamp := now, prev := none, next := none }])
      s1.heap.length =
      { key := k, value := v, timestamp := now, prev := none, next := none } :=
    nodeAt_append_self s1.heap _
  have hreadold : ∀ j ∈ l1, nodeAt (s1.heap ++
      [{ key := k, value := v, timestamp := now, prev := none, next := none }]) j =
      nodeAt s1.heap j :=
    fun j hj => nodeAt_append_lt s1.heap _ (hmemlt j hj)
  have hch2 : isChain (s1.heap ++
      [{ key := k, value := v, timestamp := now, prev := none, next := none }])
      none s1.head l1 := isChain_append_ext W1.chain
  set m : List Node :=
    s1.heap ++ [{ key := k, value := v, timestamp := now, prev := none, next := none }] with hm
  set t : LRUCache := addToFront
    { s1 with heap := m, cache := cacheInsert s1.cache k s1.heap.length }
    s1.heap.length with ht
  obtain ⟨hcha, hhda, htla, hcaa, hcapa, hexpa, hlena, hfldsa⟩ :=
    addToFront_spec
      { s1 with heap := m, cache := cacheInsert s1.cache k s1.heap.length }
      l1 s1.heap.length hch2 W1.tail_eq W1.nodup (by simp [hm]) hnotin
  have hkeyall : ∀ j, (nodeAt t.heap j).key = (nodeAt m j).key :=
    fun j => (hfldsa j).1
  have htsall : ∀ j, (nodeAt t.heap j).timestamp = (nodeAt m j).timestamp :=
    fun j => (hfldsa j).2.2
  have hcacheeq : cacheInsert s1.cache k s1.heap.length =
      (k, s1.heap.length) :: s1.cache := by
    unfold cacheInsert
    rw [cacheErase_eq_of_not_mem]
    intro p hp
    obtain ⟨hj, hkeyp⟩ := W1.mem_cache_iff.1 (show (p.1, p.2) ∈ s1.cache from hp)
    exact fun hc => hnk p.2 hj (by rw [hkeyp, hc])
  refine ⟨⟨hcha, htla, ?_, ?_⟩, hcapa, hexpa, ?_⟩
  · show (chainKeys t.heap (s1.heap.length :: l1)).Nodup
    unfold chainKeys
    rw [List.map_cons]
    rw [List.nodup_cons]
    constructor
    · rw [hkeyall, hreadnew]
      intro hcon
      obtain ⟨j, hj, hkeyj⟩ := List.mem_map.1 hcon
      rw [hkeyall j, hreadold j hj] at hkeyj
      exact hnk j hj hkeyj
    · have heq : l1.map (fun j => (nodeAt t.heap j).key) = chainKeys s1.heap l1 := by
        refine List.map_congr_left ?_
        intro j hj
        rw [hkeyall j, hreadold j hj]
      rw [heq]
      exact W1.keys_nodup
  · show t.cache.Perm _
    rw [hcaa]
    show (cacheInsert s1.cache k s1.heap.length).Perm _
    rw [hcacheeq, List.map_cons]
    have hhead : ((nodeAt t.heap s1.heap.length).key, s1.heap.length) =
        ((k : Int), s1.heap.length) := by
      rw [hkeyall, hreadnew]
    rw [hhead]
    refine List.Perm.cons _ ?_
    refine W1.cache_perm.trans ?_
    have heq : l1.map (fun j => ((nodeAt t.heap j).key, j)) =
        l1.map (fun j => ((nodeAt s1.heap j).key, j)) := by
      refine List.map_congr_left ?_
      intro j hj
      rw [hkeyall j, hreadold j hj]
    rw [heq]
  · unfold absList
    rw [List.map_cons]
    have hhead : ((nodeAt t.heap s1.heap.length).key,
        (nodeAt t.heap s1.heap.length).timestamp) = ((k : Int), now) := by
      rw [hkeyall, htsall, hreadnew]
    rw [hhead]
    refine congrArg ((k, now) :: ·) ?_
    refine List.map_congr_left ?_
    intro j hj
    rw [hkeyall j, htsall j, hreadold j hj]

/-- Correspondence of `Set` with its abstract model.  `none` (the nil-tail
dereference on the new-key path at capacity with an empty list) corresponds
exactly to the model's `none`. -/
theorem Set_spec (s : LRUCache) (l : List Nat) (now k v : Int) (W : WfWith s l) :
    match Set s now k v with
    | none => modelSet s.capacity now k v (absList s l) = none
    | some s2 =>
        s2.capacity = s.capacity ∧ s2.expiration = s.expiration ∧
        ∃ l2, WfWith s2 l2 ∧
          modelSet s.capacity now k v (absList s l) = some (absList s2 l2) ∧
          ((l.length : Int) ≤ s.capacity → (l2.length : Int) ≤ s.capacity) := by
  cases hlk : cacheLookup s.cache k with
  | some i =>
    have hmem : (k, i) ∈ s.cache := cacheLookup_mem hlk
    obtain ⟨hil, hkey⟩ := W.mem_cache_iff.1 hmem
    have hilt : i < s.heap.length := isChain_mem_lt W.chain i hil
    have hct : ((absList s l).map Prod.fst).contains k = true :=
      contains_absKeys_true ⟨i, hil, hkey⟩
    have hs1 : nodeAt (setNode s.heap i ({ nodeAt s.heap i with value := v, timestamp := now })) i
        = { nodeAt s.heap i with value := v, timestamp := now } := nodeAt_set_self _ _ _ hilt
    have hset : Set s now k v = some (moveToFront
        { s with heap := setNode s.heap i ({ nodeAt s.heap i with value := v, timestamp := now }) } i) := by
      simp only [Set, hlk]
    have W1 : WfWith { s with heap := setNode s.heap i ({ nodeAt s.heap i with value := v, timestamp := now }) } l := by
      refine WfWith_congr W (length_setNode _ _ _) ?_ ?_ rfl rfl rfl
      · intro j hj
        by_cases hji : j = i
        · subst hji
          rw [hs1]
          exact ⟨rfl, rfl⟩
        · rw [nodeAt_set_ne _ _ (fun hcon => hji hcon.symm)]
          exact ⟨rfl, rfl⟩
      · intro j
        exact nodeAt_patch_key s.heap i
          ({ nodeAt s.heap i with value := v, timestamp := now }) rfl j
    have hfields1 : ∀ j, j ≠ i →
        nodeAt (setNode s.heap i ({ nodeAt s.heap i with value := v, timestamp := now })) j
          = nodeAt s.heap j :=
      fun j hj => nodeAt_set_ne _ _ (fun hcon => hj hcon.symm)
    obtain ⟨m1, m2, rfl⟩ := List.append_of_mem hil
    obtain ⟨Wmv, hcamv, hcapmv, hexpmv, hlenmv, hfldsmv⟩ :=
      moveToFront_spec _ m1 m2 i W1
    rw [hset]
    refine ⟨hcapmv, hexpmv, i :: (m1 ++ m2), Wmv, ?_, ?_⟩
    · rw [modelSet, hct]
      simp only [if_true]
      have hfil : (absList s (m1 ++ i :: m2)).filter (fun p => !(p.1 == k)) =
          absList s (m1 ++ m2) := by
        unfold absList
        rw [List.filter_map]
        have hpred : ((fun p : Int × Int => !(p.1 == k)) ∘
            (fun i => ((nodeAt s.heap i).key, (nodeAt s.heap i).timestamp))) =
            (fun j => !((nodeAt s.heap j).key == k)) := rfl
        rw [hpred]
        rw [filter_unique_key W.keys_nodup W.nodup hkey]
      rw [hfil]
      unfold absList
      rw [List.map_cons]
      have hii : i ∉ m1 ++ m2 := by
        have hnd := W.nodup
        rw [List.nodup_append] at hnd
        intro hcon
        rcases List.mem_append.1 hcon with h | h
        · exact (List.disjoint_left.1 hnd.2.2) h (by simp)
        · exact (List.nodup_cons.1 hnd.2.1).1 h
      have hheadeq : ((nodeAt (moveToFront { s with heap := setNode s.heap i ({ nodeAt s.heap i with value := v, timestamp := now }) } i).heap i).key,
          (nodeAt (moveToFront { s with heap := setNode s.heap i ({ nodeAt s.heap i with value := v, timestamp := now }) } i).heap i).timestamp) = (k, now) := by
        have h1 := hfldsmv i
        rw [h1.1.trans (congrArg Node.key hs1), h1.2.2.trans (congrArg Node.timestamp hs1)]
        simp [hkey]
      rw [hheadeq]
      refine congrArg (fun x => some ((k, now) :: x)) ?_
      refine List.map_congr_left ?_
      intro j hj
      have hji : j ≠ i := fun hcon => hii (hcon ▸ hj)
      have h1 := hfldsmv j
      rw [h1.1.trans (congrArg Node.key (hfields1 j hji)),
        h1.2.2.trans (congrArg Node.timestamp (hfields1 j hji))]
    · intro hle
      simpa using hle
  | none =>
    have hnk : ∀ j ∈ l, (nodeAt s.heap j).key ≠ k := W.lookup_none_iff.1 hlk
    have hcf : ((absList s l).map Prod.fst).contains k = false :=
      contains_absKeys_false hnk
    have hrlen : (absList s l).length = l.length := by
      unfold absList
      rw [List.length_map]
    have hclen : s.cache.length = l.length := W.length_cache
    have hcapiff : ((s.cache.length : Int) ≥ s.capacity) ↔ ((l.length : Int) ≥ s.capacity) := by
      rw [hclen]
    by_cases hcap : (s.cache.length : Int) ≥ s.capacity
    · cases htail : s.tail with
      | none =>
        have hl : l = [] := by
          have := W.tail_eq
          rw [htail] at this
          exact List.getLast?_eq_none_iff.1 this.symm
        subst hl
        have hset : Set s now k v = none := by
          simp only [Set, hlk]
          rw [if_pos hcap, htail]
        rw [hset]
        rw [modelSet, hcf]
        simp only [Bool.false_eq_true, if_false]
        rw [if_pos (by rw [hrlen]; exact hcapiff.1 hcap)]
        simp [absList]
      | some tid =>
        have hgl : l.getLast? = some tid := by
          have := W.tail_eq
          rw [htail] at this
          exact this.symm
        have hlne : l ≠ [] := by
          intro hcon
          rw [hcon] at hgl
          simp at hgl
        have htid : l.getLast hlne = tid := by
          rw [List.getLast?_eq_getLast_of_ne_nil hlne] at hgl
          exact Option.some_inj.1 hgl
        have hdecomp : l.dropLast ++ [tid] = l := by
          rw [← htid]
          exact List.dropLast_append_getLast hlne
        have hset : Set s now k v = some (addToFront
            { evict s (nodeAt s.heap tid).key with
              heap := (evict s (nodeAt s.heap tid).key).heap ++
                [{ key := k, value := v, timestamp := now, prev := none, next := none }],
              cache := cacheInsert (evict s (nodeAt s.heap tid).key).cache k
                (evict s (nodeAt s.heap tid).key).heap.length }
            (evict s (nodeAt s.heap tid).key).heap.length) := by
          simp only [Set, hlk]
          rw [if_pos hcap, htail]
        obtain ⟨Wev, hcaev, hcapev, hexpev, hlenev, hfldsev⟩ :=
          evict_spec s l (nodeAt s.heap tid).key W
        have htidmem : tid ∈ l := by
          rw [← hdecomp]
          simp
        have hfilev : l.filter (fun j => !((nodeAt s.heap j).key == (nodeAt s.heap tid).key)) =
            l.dropLast := by
          have := @filter_unique_key s.heap l.dropLast [] tid (nodeAt s.heap tid).key
            (by rw [show l.dropLast ++ tid :: [] = l from hdecomp]; exact W.keys_nodup)
            (by rw [show l.dropLast ++ tid :: [] = l from hdecomp]; exact W.nodup) rfl
          rw [show l.dropLast ++ tid :: [] = l from hdecomp] at this
          rw [this]
          simp
        rw [hfilev] at Wev
        have hnkev : ∀ j ∈ l.dropLast, (nodeAt (evict s (nodeAt s.heap tid).key).heap j).key ≠ k := by
          intro j hj
          rw [(hfldsev j).1]
          exact hnk j (by rw [← hdecomp]; exact List.mem_append.2 (Or.inl hj))
        obtain ⟨Wins, hcapins, hexpins, habsins⟩ :=
          insert_spec (evict s (nodeAt s.heap tid).key) _ l.dropLast now k v _ Wev hnkev rfl rfl
        rw [hset]
        refine ⟨hcapins.trans hcapev, hexpins.trans hexpev,
          (evict s (nodeAt s.heap tid).key).heap.length :: l.dropLast, Wins, ?_, ?_⟩
        · rw [modelSet, hcf]
          simp only [Bool.false_eq_true, if_false]
          rw [if_pos (by rw [hrlen]; exact hcapiff.1 hcap)]
          have hglr : (absList s l).getLast? =
              some ((nodeAt s.heap tid).key, (nodeAt s.heap tid).timestamp) := by
            unfold absList
            rw [List.getLast?_map, hgl]
            rfl
          rw [hglr]
          rw [habsins]
          refine congrArg some (congrArg ((k, now) :: ·) ?_)
          have habs1 : absList (evict s (nodeAt s.heap tid).key) l.dropLast =
              absList s l.dropLast := by
            unfold absList
            refine List.map_congr_left ?_
            intro j _
            rw [(hfldsev j).1, (hfldsev j).2.2]
          rw [habs1]
          unfold absList
          rw [List.map_dropLast]
        · intro hle
          have : l.dropLast.length = l.length - 1 := List.length_dropLast l
          have hlpos : 0 < l.length := by
            cases l with
            | nil => exact absurd rfl hlne
            | cons a l => simp
          simp only [List.length_cons, this]
          omega
    · have hset : Set s now k v = some (addToFront
          { s with
            heap := s.heap ++
              [{ key := k, value := v, timestamp := now, prev := none, next := none }],
            cache := cacheInsert s.cache k s.heap.length } s.heap.length) := by
        simp only [Set, hlk]
        rw [if_neg hcap]
      obtain ⟨Wins, hcapins, hexpins, habsins⟩ :=
        insert_spec s _ l now k v _ W hnk rfl rfl
      rw [hset]
      refine ⟨hcapins, hexpins, s.heap.length :: l, Wins, ?_, ?_⟩
      · rw [modelSet, hcf]
        simp only [Bool.false_eq_true, if_false]
        rw [if_neg (by rw [hrlen]; exact fun hcon => hcap (hcapiff.2 hcon))]
        rw [habsins]
      · intro _
        have hcap2 : (s.cache.length : Int) < s.capacity := by omega
        rw [hclen] at hcap2
        simp only [List.length_cons]
        push_cast
        omega

/-- Induction workhorse for the sweep loop: folding the eviction body over a
snapshot `ps` of index pairs removes from the chain exactly the members whose
key occurs in `ps` and whose entry is expired (ages judged against the
original heap `s`, whose scalar fields every intermediate state preserves). -/
theorem sweep_fold_aux (s : LRUCache) (E now : Int) :
    ∀ (ps : List (Int × Nat)) (t : LRUCache) (m : List Nat),
      WfWith t m →
      t.expiration = E →
      (∀ j, (nodeAt t.heap j).key = (nodeAt s.heap j).key ∧
        (nodeAt t.heap j).value = (nodeAt s.heap j).value ∧
        (nodeAt t.heap j).timestamp = (nodeAt s.heap j).timestamp) →
      (ps.map Prod.fst).Nodup →
      (∀ p ∈ ps, p ∈ t.cache) →
      (WfWith (ps.foldl (fun acc p =>
          if now - (nodeAt acc.heap p.2).timestamp > acc.expiration then
            evict acc p.1 else acc) t)
        (m.filter (fun i => !(decide (now - (nodeAt s.heap i).timestamp > E) &&
          (ps.map Prod.fst).contains (nodeAt s.heap i).key))) ∧
      (ps.foldl (fun acc p =>
          if now - (nodeAt acc.heap p.2).timestamp > acc.expiration then
            evict acc p.1 else acc) t).capacity = t.capacity ∧
      (ps.foldl (fun acc p =>
          if now - (nodeAt acc.heap p.2).timestamp > acc.expiration then
            evict acc p.1 else acc) t).expiration = E ∧
      (∀ j, (nodeAt (ps.foldl (fun acc p =>
          if now - (nodeAt acc.heap p.2).timestamp > acc.expiration then
            evict acc p.1 else acc) t).heap j).key = (nodeAt s.heap j).key ∧
        (nodeAt (ps.foldl (fun acc p =>
          if now - (nodeAt acc.heap p.2).timestamp > acc.expiration then
            evict acc p.1 else acc) t).heap j).value = (nodeAt s.heap j).value ∧
        (nodeAt (ps.foldl (fun acc p =>
          if now - (nodeAt acc.heap p.2).timestamp > acc.expiration then
            evict acc p.1 else acc) t).heap j).timestamp = (nodeAt s.heap j).timestamp)) := by
  intro ps
  induction ps with
  | nil =>
    intro t m W hexp hflds _ _
    rw [List.foldl_nil]
    have hfil : m.filter (fun i => !(decide (now - (nodeAt s.heap i).timestamp > E) &&
        (([] : List (Int × Nat)).map Prod.fst).contains (nodeAt s.heap i).key)) = m := by
      rw [List.filter_eq_self]
      intro j _
      simp
    rw [hfil]
    exact ⟨W, rfl, hexp, hflds⟩
  | cons p ps ih =>
    intro t m W hexp hflds hknd hpairs
    obtain ⟨k2, i2⟩ := p
    rw [List.foldl_cons]
    have hmem : (k2, i2) ∈ t.cache := hpairs (k2, i2) (by simp)
    obtain ⟨hi2m, hkeyt⟩ := W.mem_cache_iff.1 hmem
    have hkeys : (nodeAt s.heap i2).key = k2 := by
      rw [← (hflds i2).1]
      exact hkeyt
    have hcondeq : (now - (nodeAt t.heap i2).timestamp > t.expiration) ↔
        (now - (nodeAt s.heap i2).timestamp > E) := by
      rw [(hflds i2).2.2, hexp]
    have hknd2 : (k2 :: ps.map Prod.fst).Nodup := by simpa using hknd
    have hkndtail : (ps.map Prod.fst).Nodup := (List.nodup_cons.1 hknd2).2
    have hk2tail : k2 ∉ ps.map Prod.fst := (List.nodup_cons.1 hknd2).1
    have huniq : ∀ j ∈ m, (nodeAt s.heap j).key = k2 → j = i2 := by
      intro j hj hjk
      have hmapnd : (m.map (fun i => (nodeAt t.heap i).key)).Nodup := W.keys_nodup
      refine List.inj_on_of_nodup_map hmapnd hj hi2m ?_
      rw [(hflds j).1, (hflds i2).1, hjk, hkeys]
    by_cases hcond : now - (nodeAt s.heap i2).timestamp > E
    · have hstep : (if now - (nodeAt t.heap i2).timestamp > t.expiration then
          evict t k2 else t) = evict t k2 := by
        rw [if_pos (hcondeq.2 hcond)]
      rw [hstep]
      obtain ⟨Wev, hcaev, hcapev, hexpev, hlenev, hfldsev⟩ := evict_spec t m k2 W
      have hfldsev2 : ∀ j, (nodeAt (evict t k2).heap j).key = (nodeAt s.heap j).key ∧
          (nodeAt (evict t k2).heap j).value = (nodeAt s.heap j).value ∧
          (nodeAt (evict t k2).heap j).timestamp = (nodeAt s.heap j).timestamp := by
        intro j
        have h1 := hfldsev j
        have h2 := hflds j
        exact ⟨h1.1.trans h2.1, h1.2.1.trans h2.2.1, h1.2.2.trans h2.2.2⟩
      have hpairs2 : ∀ q ∈ ps, q ∈ (evict t k2).cache := by
        intro q hq
        rw [hcaev]
        have hqk : ¬((q.1 == k2) = true) := by
          simp only [beq_iff_eq]
          intro hcon
          exact hk2tail (hcon ▸ List.mem_map.2 ⟨q, hq, rfl⟩)
        show q ∈ List.eraseP (fun p => p.1 == k2) t.cache
        exact (@List.mem_eraseP_of_neg _ (fun p : Int × Nat => p.1 == k2) q
          t.cache hqk).2 (hpairs q (by simp [hq]))
      have hrec := ih (evict t k2) _ Wev (hexpev.trans hexp) hfldsev2 hkndtail hpairs2
      obtain ⟨Wfin, hcapfin, hexpfin, hfldsfin⟩ := hrec
      refine ⟨?_, hcapfin.trans hcapev, hexpfin, hfldsfin⟩
      have hfe : (m.filter (fun j => !((nodeAt t.heap j).key == k2))).filter
          (fun i => !(decide (now - (nodeAt s.heap i).timestamp > E) &&
            (ps.map Prod.fst).contains (nodeAt s.heap i).key)) =
          m.filter (fun i => !(decide (now - (nodeAt s.heap i).timestamp > E) &&
            (((k2, i2) :: ps).map Prod.fst).contains (nodeAt s.heap i).key)) := by
        rw [List.filter_filter]
        refine List.filter_congr ?_
        intro j hj
        by_cases hjk : (nodeAt s.heap j).key = k2
        · have hji : j = i2 := huniq j hj hjk
          subst hji
          have h1 : ((nodeAt t.heap j).key == k2) = true := by
            rw [(hflds j).1]
            simpa using hjk
          simp [h1, hjk, hcond]
        · have h1 : ((nodeAt t.heap j).key == k2) = false := by
            rw [(hflds j).1]
            simpa using hjk
          have h2 : (k2 == (nodeAt s.heap j).key) = false := by
            simp only [beq_eq_false_iff_ne, ne_eq]
            exact fun hcon => hjk hcon.symm
          have h3 : ((nodeAt s.heap j).key == k2) = false := by
            simpa using hjk
          simp [h1, h2, h3, List.contains_cons]
      rw [← hfe]
      exact Wfin
    · have hstep : (if now - (nodeAt t.heap i2).timestamp > t.expiration then
          evict t k2 else t) = t := by
        rw [if_neg (fun hcon => hcond (hcondeq.1 hcon))]
      rw [hstep]
      have hrec := ih t m W hexp hflds hkndtail (fun q hq => hpairs q (by simp [hq]))
      obtain ⟨Wfin, hcapfin, hexpfin, hfldsfin⟩ := hrec
      refine ⟨?_, hcapfin, hexpfin, hfldsfin⟩
      have hfe : m.filter (fun i => !(decide (now - (nodeAt s.heap i).timestamp > E) &&
            (ps.map Prod.fst).contains (nodeAt s.heap i).key)) =
          m.filter (fun i => !(decide (now - (nodeAt s.heap i).timestamp > E) &&
            (((k2, i2) :: ps).map Prod.fst).contains (nodeAt s.heap i).key)) := by
        refine List.filter_congr ?_
        intro j hj
        by_cases hjk : (nodeAt s.heap j).key = k2
        · have hji : j = i2 := huniq j hj hjk
          subst hji
          have hnotexp : (decide (now - (nodeAt s.heap j).timestamp > E)) = false := by
            simpa using hcond
          simp [hnotexp]
        · have h2 : (k2 == (nodeAt s.heap j).key) = false := by
            simp only [beq_eq_false_iff_ne, ne_eq]
            exact fun hcon => hjk hcon.symm
          have h3 : ((nodeAt s.heap j).key == k2) = false := by
            simpa using hjk
          simp [h2, h3, List.contains_cons]
      rw [← hfe]
      exact Wfin

/-- Correspondence of a sweep pass with its abstract model: it keeps exactly
the chain members that are not expired at `now`, in order. -/
theorem sweepPass_spec (s : LRUCache) (l : List Nat) (now : Int) (W : WfWith s l) :
    (sweepPass s now).capacity = s.capacity ∧
    (sweepPass s now).expiration = s.expiration ∧
    WfWith (sweepPass s now)
      (l.filter (fun i => !(decide (now - (nodeAt s.heap i).timestamp > s.expiration)))) ∧
    absList (sweepPass s now)
      (l.filter (fun i => !(decide (now - (nodeAt s.heap i).timestamp > s.expiration)))) =
      modelSweep s.expiration now (absList s l) ∧
    (l.filter (fun i =>
      !(decide (now - (nodeAt s.heap i).timestamp > s.expiration)))).length ≤ l.length ∧
    (∀ j, (nodeAt (sweepPass s now).heap j).key = (nodeAt s.heap j).key ∧
      (nodeAt (sweepPass s now).heap j).value = (nodeAt s.heap j).value ∧
      (nodeAt (sweepPass s now).heap j).timestamp = (nodeAt s.heap j).timestamp) := by
  simp only [sweepPass]
  obtain ⟨Wfin, hcap, hexp, hflds⟩ :=
    sweep_fold_aux s s.expiration now s.cache s l W rfl (fun j => ⟨rfl, rfl, rfl⟩)
      W.cache_keys_nodup (fun p hp => hp)
  have hfeq : l.filter (fun i => !(decide (now - (nodeAt s.heap i).timestamp > s.expiration) &&
      (s.cache.map Prod.fst).contains (nodeAt s.heap i).key)) =
      l.filter (fun i => !(decide (now - (nodeAt s.heap i).timestamp > s.expiration))) := by
    refine List.filter_congr ?_
    intro j hj
    have hmem : ((nodeAt s.heap j).key, j) ∈ s.cache := W.mem_cache_iff.2 ⟨hj, rfl⟩
    have hcont : (s.cache.map Prod.fst).contains (nodeAt s.heap j).key = true := by
      rw [List.contains_iff_exists_mem_beq]
      exact ⟨(nodeAt s.heap j).key, List.mem_map.2 ⟨_, hmem, rfl⟩, by simp⟩
    rw [hcont]
    simp
  rw [hfeq] at Wfin
  refine ⟨hcap, hexp, Wfin, ?_, List.length_filter_le _ l, hflds⟩
  unfold absList modelSweep
  rw [List.filter_map]
  have hpred : ((fun p : Int × Int => !(decide (now - p.2 > s.expiration))) ∘
      (fun i => ((nodeAt s.heap i).key, (nodeAt s.heap i).timestamp))) =
      (fun i => !(decide (now - (nodeAt s.heap i).timestamp > s.expiration))) := rfl
  rw [hpred]
  refine List.map_congr_left ?_
  intro j _
  rw [(hflds j).1, (hflds j).2.2]

/-- Refinement of whole runs: a run that completes preserves well-formedness,
capacity boundedness, and is tracked exactly by the abstract model; a run
that faults corresponds to a faulting model run. -/
theorem run_spec : ∀ (ops : List Op) (s : LRUCache) (l : List Nat),
    WfWith s l →
    match run s ops with
    | none => modelRun s.capacity s.expiration (absList s l) ops = none
    | some s2 =>
        s2.capacity = s.capacity ∧ s2.expiration = s.expiration ∧
        ∃ l2, WfWith s2 l2 ∧
          modelRun s.capacity s.expiration (absList s l) ops = some (absList s2 l2) ∧
          ((l.length : Int) ≤ s.capacity → (l2.length : Int) ≤ s.capacity) := by
  intro ops
  induction ops with
  | nil =>
    intro s l W
    show s.capacity = s.capacity ∧ _
    exact ⟨rfl, rfl, l, W, rfl, fun h => h⟩
  | cons o ops ih =>
    intro s l W
    cases o with
    | get now k =>
      obtain ⟨hcap1, hexp1, l1, W1, habs1, hlen1⟩ := Get_spec s l now k W
      have hrun : run s (Op.get now k :: ops) = run (Get s now k).2 ops := rfl
      have hmodel : modelRun s.capacity s.expiration (absList s l) (Op.get now k :: ops) =
          modelRun s.capacity s.expiration (modelGet s.expiration now k (absList s l)) ops := rfl
      rw [hrun, hmodel, ← habs1]
      have := ih (Get s now k).2 l1 W1
      rw [hcap1, hexp1] at this
      cases hr : run (Get s now k).2 ops with
      | none =>
        rw [hr] at this
        exact this
      | some s2 =>
        rw [hr] at this
        obtain ⟨h1, h2, l2, W2, h3, h4⟩ := this
        refine ⟨h1, h2, l2, W2, h3, ?_⟩
        intro hle
        refine h4 ?_
        have : (l1.length : Int) ≤ (l.length : Int) := by exact_mod_cast hlen1
        omega
    | set now k v =>
      have hss := Set_spec s l now k v W
      have hrun : run s (Op.set now k v :: ops) =
          (match Set s now k v with
            | some s1 => run s1 ops
            | none => none) := rfl
      have hmodel : modelRun s.capacity s.expiration (absList s l) (Op.set now k v :: ops) =
          (match modelSet s.capacity now k v (absList s l) with
            | some r2 => modelRun s.capacity s.expiration r2 ops
            | none => none) := rfl
      cases hset : Set s now k v with
      | none =>
        rw [hset] at hss
        have hrun2 : run s (Op.set now k v :: ops) = none := by rw [hrun, hset]
        have hmodel2 : modelRun s.capacity s.expiration (absList s l)
            (Op.set now k v :: ops) = none := by
          rw [hmodel, hss]
        rw [hrun2]
        exact hmodel2
      | some s1 =>
        rw [hset] at hss
        obtain ⟨hcap1, hexp1, l1, W1, habs1, hlen1⟩ := hss
        have hrun2 : run s (Op.set now k v :: ops) = run s1 ops := by rw [hrun, hset]
        have hmodel2 : modelRun s.capacity s.expiration (absList s l)
            (Op.set now k v :: ops) =
            modelRun s.capacity s.expiration (absList s1 l1) ops := by
          rw [hmodel, habs1]
        rw [hrun2, hmodel2]
        have := ih s1 l1 W1
        rw [hcap1, hexp1] at this
        cases hr : run s1 ops with
        | none =>
          rw [hr] at this
          exact this
        | some s2 =>
          rw [hr] at this
          obtain ⟨h1, h2, l2, W2, h3, h4⟩ := this
          exact ⟨h1, h2, l2, W2, h3, fun hle => h4 (hlen1 hle)⟩
    | sweep now =>
      obtain ⟨hcap1, hexp1, W1, habs1, hlen1, _⟩ := sweepPass_spec s l now W
      have hrun : run s (Op.sweep now :: ops) = run (sweepPass s now) ops := rfl
      have hmodel : modelRun s.capacity s.expiration (absList s l) (Op.sweep now :: ops) =
          modelRun s.capacity s.expiration (modelSweep s.expiration now (absList s l)) ops := rfl
      rw [hrun, hmodel, ← habs1]
      have := ih (sweepPass s now) _ W1
      rw [hcap1, hexp1] at this
      cases hr : run (sweepPass s now) ops with
      | none =>
        rw [hr] at this
        exact this
      | some s2 =>
        rw [hr] at this
        obtain ⟨h1, h2, l2, W2, h3, h4⟩ := this
        refine ⟨h1, h2, l2, W2, h3, ?_⟩
        intro hle
        refine h4 ?_
        have : ((l.filter (fun i =>
            !(decide (now - (nodeAt s.heap i).timestamp > s.expiration)))).length : Int) ≤
            (l.length : Int) := by exact_mod_cast hlen1
        omega

/-- The constructed state is well formed (with the empty chain). -/
theorem Constructor_wf (capacity expiration : Int) :
    WfWith (Constructor capacity expiration) [] := by
  refine ⟨?_, ?_, ?_, ?_⟩
  · rw [isChain_nil]
    rfl
  · rfl
  · exact List.nodup_nil
  · exact List.Perm.refl _

theorem remove_cache (s : LRUCache) (i : Nat) : (remove s i).cache = s.cache := by
  simp only [remove]
  split <;> split <;> rfl

theorem cacheLookup_cacheErase_self {c : List (Int × Nat)} {k : Int}
    (hnd : (c.map Prod.fst).Nodup) : cacheLookup (cacheErase c k) k = none := by
  rw [cacheErase_eq_filter hnd, cacheLookup_eq_none]
  intro p hp
  have := List.of_mem_filter hp
  simpa using this

theorem evict_cache_of_lookup {s : LRUCache} {k : Int} {i : Nat}
    (h : cacheLookup s.cache k = some i) : (evict s k).cache = cacheErase s.cache k := by
  simp only [evict, h]
  rw [remove_cache]

/-! ## The claims -/

/-- C1.  The specification claims that `Get` judges staleness against the
entry's previous `last_touched` timestamp, evicting and returning a miss when
`now - last_touched > ttl`.  The code instead overwrites the timestamp with
`now` *before* the staleness test, so the test can never fire: at the failing
input (capacity 10, ttl 5, `Set(1, 42)` at time 0, `Get(1)` at time 100,
age 100 > ttl 5) the claim demands a miss (-1) with the entry removed, but
`Get` returns the stored value 42 as a hit and the entry stays in the index
with its timestamp rewritten to 100. -/
theorem C1_get_expiry_check_is_dead :
    (Set (Constructor 10 5) 0 1 42).map
      (fun s1 => ((Get s1 100 1).1,
        cacheLookup (Get s1 100 1).2.cache 1,
        (nodeAt (Get s1 100 1).2.heap 0).timestamp)) =
      some (42, some 0, 100) := by
  rfl

/-- C2.  After any completed operation, starting from `Constructor` with a
nonnegative capacity (the spec types capacity as `uint`), the number of
entries in the key index never exceeds the capacity — including capacity 0,
where a new-key `Set` never completes (it faults on the nil tail, see C10),
so the index stays empty. -/
theorem C2_capacity_invariant (cap ttl : Int) (ops : List Op) (s2 : LRUCache)
    (hcap : 0 ≤ cap)
    (hrun : run (Constructor cap ttl) ops = some s2) :
    (s2.cache.length : Int) ≤ cap := by
  have hs := run_spec ops (Constructor cap ttl) [] (Constructor_wf cap ttl)
  rw [hrun] at hs
  obtain ⟨_, _, l2, W2, _, h4⟩ := hs
  rw [W2.length_cache]
  exact h4 (by simpa using hcap)

theorem C2_capacity_invariant_witness :
    (0 : Int) ≤ 2 ∧
    ((((run (Constructor 2 5) [Op.set 0 1 10, Op.set 1 2 20, Op.set 2 3 30]).getD
      (Constructor 0 0)).cache.length : Int) ≤ 2) :=
  ⟨by decide,
    C2_capacity_invariant 2 5 [Op.set 0 1 10, Op.set 1 2 20, Op.set 2 3 30] _
      (by decide) (by rfl)⟩

/-- C5.  The specification claims TTL is a sliding window: a key set at T0
and read at T0 + ttl/2 should be a hit just before T0 + ttl/2 + ttl and a
miss just after.  The hit at T0 + ttl/2 does refresh recency and the stored
timestamp (both visible below), but the later `Get` never misses: with
ttl = 4, `Set(1, 99)` at time 0 and a hit `Get(1)` at time 2 (timestamp
becomes 2), the `Get(1)` at time 7 — age 5 > ttl 4, which the claim says is
a miss — still returns 99, because `Get` refreshes the timestamp before its
staleness test (same root cause as C1). -/
theorem C5_ttl_sliding_window_miss_never_happens :
    (run (Constructor 10 4) [Op.set 0 1 99, Op.get 2 1]).map
      (fun s => ((nodeAt s.heap 0).timestamp, walk s, (Get s 7 1).1)) =
      some (2, [0], 99) := by
  rfl

/-- C8.  `evict` is idempotent: evicting an absent key is a no-op leaving the
whole state (index and order included) unchanged, and — whenever the index
keys are distinct, as they are in every reachable state — evicting twice
equals evicting once. -/
theorem C8_evict_idempotent (s : LRUCache) (k : Int) :
    (cacheLookup s.cache k = none → evict s k = s) ∧
    ((s.cache.map Prod.fst).Nodup → evict (evict s k) k = evict s k) := by
  constructor
  · intro h
    simp [evict, h]
  · intro hnd
    cases hlk : cacheLookup s.cache k with
    | none =>
      have h1 : evict s k = s := by simp [evict, hlk]
      rw [h1, h1]
    | some i =>
      have hca : (evict s k).cache = cacheErase s.cache k := evict_cache_of_lookup hlk
      have hnone : cacheLookup (evict s k).cache k = none := by
        rw [hca]
        exact cacheLookup_cacheErase_self hnd
      conv_lhs => rw [evict]
      rw [hnone]

theorem C8_evict_idempotent_witness :
    cacheLookup (Constructor 2 5).cache 7 = none ∧
    evict (Constructor 2 5) 7 = Constructor 2 5 ∧
    ((Constructor 2 5).cache.map Prod.fst).Nodup ∧
    evict (evict (Constructor 2 5) 7) 7 = evict (Constructor 2 5) 7 :=
  ⟨by decide, (C8_evict_idempotent (Constructor 2 5) 7).1 (by decide), by decide,
    (C8_evict_idempotent (Constructor 2 5) 7).2 (by decide)⟩

/-- C9.  The miss sentinel of `Get` is ambiguous: in the reachable state
obtained by `Set(1, -1)` at time 0 (capacity 4, ttl 100), key 1 is present
and unexpired at time 1, yet `Get(1)` returns -1 — exactly what `Get(2)`
returns for the absent key 2.  A -1 result therefore does not imply the key
was absent or expired. -/
theorem C9_miss_sentinel_ambiguous :
    (Set (Constructor 4 100) 0 1 (-1)).map
      (fun s1 => (cacheLookup s1.cache 1, (Get s1 1 1).1, (Get s1 1 2).1)) =
      some (some 0, -1, -1) := by
  rfl

/-- C3.  Every operation — `Get`, a completing `Set`, `evict`, and a sweep
pass — preserves the bijection between the key index and the recency list:
from any well-formed state the resulting state is well formed again, its key
index is (as a multiset) exactly the (key, node) pairs of the nodes found by
walking `order` from head to tail, and therefore `|index| == |order|`. -/
theorem C3_bijection_preserved (s : LRUCache) (hwf : Wf s) :
    (∀ op s2, step s op = some s2 →
      Wf s2 ∧
      s2.cache.Perm ((walk s2).map (fun i => ((nodeAt s2.heap i).key, i))) ∧
      s2.cache.length = (walk s2).length) ∧
    (∀ k, Wf (evict s k) ∧
      (evict s k).cache.Perm
        ((walk (evict s k)).map (fun i => ((nodeAt (evict s k).heap i).key, i))) ∧
      (evict s k).cache.length = (walk (evict s k)).length) := by
  obtain ⟨l, W⟩ := hwf
  have hmk : ∀ (t : LRUCache) (lt : List Nat), WfWith t lt →
      Wf t ∧ t.cache.Perm ((walk t).map (fun i => ((nodeAt t.heap i).key, i))) ∧
      t.cache.length = (walk t).length := by
    intro t lt Wt
    refine ⟨⟨lt, Wt⟩, ?_, ?_⟩
    · rw [walk_eq Wt]
      exact Wt.cache_perm
    · rw [walk_eq Wt]
      exact Wt.length_cache
  constructor
  · intro op s2 hstep
    cases op with
    | get now k =>
      obtain ⟨_, _, l1, W1, _, _⟩ := Get_spec s l now k W
      have he : s2 = (Get s now k).2 := (Option.some_inj.1 hstep).symm
      subst he
      exact hmk _ l1 W1
    | set now k v =>
      have hss := Set_spec s l now k v W
      have hstep2 : Set s now k v = some s2 := hstep
      rw [hstep2] at hss
      obtain ⟨_, _, l1, W1, _, _⟩ := hss
      exact hmk _ l1 W1
    | sweep now =>
      obtain ⟨_, _, W1, _, _, _⟩ := sweepPass_spec s l now W
      have he : s2 = sweepPass s now := (Option.some_inj.1 hstep).symm
      subst he
      exact hmk _ _ W1
  · intro k
    obtain ⟨Wev, _, _, _, _, _⟩ := evict_spec s l k W
    exact hmk _ _ Wev

theorem C3_bijection_preserved_witness :
    Wf (Constructor 2 5) ∧
    Wf ((step (Constructor 2 5) (Op.set 0 1 10)).getD (Constructor 0 0)) ∧
    ((step (Constructor 2 5) (Op.set 0 1 10)).getD (Constructor 0 0)).cache.length =
      (walk ((step (Constructor 2 5) (Op.set 0 1 10)).getD (Constructor 0 0))).length := by
  have hwf0 : Wf (Constructor 2 5) := ⟨[], by decide, by decide, by decide, by decide⟩
  have h := (C3_bijection_preserved (Constructor 2 5) hwf0).1 (Op.set 0 1 10)
    ((step (Constructor 2 5) (Op.set 0 1 10)).getD (Constructor 0 0)) (by rfl)
  exact ⟨hwf0, h.1, h.2.2⟩

/-- C4.  From any well-formed state at capacity (`|index| >= capacity`) with
a non-empty recency list (so "the current tail entry" exists), `Set` of a key
not in the index completes and evicts exactly the tail (least-recently-used)
entry before inserting: the key sequence of the new recency list is the new
key followed by the old key sequence minus its last element.  No freshness
hypothesis appears anywhere: the eviction is unconditional and independent of
whether the tail entry is expired. -/
theorem C4_capacity_evicts_tail (s : LRUCache) (l : List Nat) (now k v : Int)
    (W : WfWith s l)
    (hcap : (s.cache.length : Int) ≥ s.capacity)
    (hnew : cacheLookup s.cache k = none)
    (hne : l ≠ []) :
    ∃ s2, Set s now k v = some s2 ∧ walkKeys s2 = k :: (walkKeys s).dropLast := by
  have hss := Set_spec s l now k v W
  have hcf : ((absList s l).map Prod.fst).contains k = false :=
    contains_absKeys_false (W.lookup_none_iff.1 hnew)
  have hlen : (absList s l).length = l.length := by
    unfold absList
    rw [List.length_map]
  have hcap2 : ((absList s l).length : Int) ≥ s.capacity := by
    rw [hlen, ← W.length_cache]
    exact hcap
  have hglsome : ∃ t, (absList s l).getLast? = some t := by
    cases hgl : (absList s l).getLast? with
    | none =>
      have : absList s l = [] := List.getLast?_eq_none_iff.1 hgl
      have : l = [] := by
        cases l with
        | nil => rfl
        | cons a l => simp [absList] at this
      exact absurd this hne
    | some t => exact ⟨t, rfl⟩
  obtain ⟨t, hgl⟩ := hglsome
  cases hset : Set s now k v with
  | none =>
    rw [hset] at hss
    rw [modelSet, hcf] at hss
    simp only [Bool.false_eq_true, if_false] at hss
    rw [if_pos hcap2, hgl] at hss
    exact absurd hss (by simp)
  | some s2 =>
    rw [hset] at hss
    obtain ⟨_, _, l2, W2, habs, _⟩ := hss
    rw [modelSet, hcf] at habs
    simp only [Bool.false_eq_true, if_false] at habs
    rw [if_pos hcap2, hgl] at habs
    have habs2 : (k, now) :: (absList s l).dropLast = absList s2 l2 :=
      Option.some_inj.1 habs
    refine ⟨s2, rfl, ?_⟩
    have hkeys := congrArg (List.map Prod.fst) habs2
    simp only [List.map_cons, List.map_dropLast, absKeys] at hkeys
    unfold walkKeys
    rw [walk_eq W2, walk_eq W]
    exact hkeys.symm

theorem C4_capacity_evicts_tail_witness :
    ((((run (Constructor 2 5) [Op.set 0 1 10, Op.set 1 2 20]).getD
        (Constructor 0 0)).cache.length : Int) ≥
      ((run (Constructor 2 5) [Op.set 0 1 10, Op.set 1 2 20]).getD
        (Constructor 0 0)).capacity) ∧
    (∃ s2, Set ((run (Constructor 2 5) [Op.set 0 1 10, Op.set 1 2 20]).getD
        (Constructor 0 0)) 2 3 30 = some s2 ∧
      walkKeys s2 = 3 :: (walkKeys ((run (Constructor 2 5)
        [Op.set 0 1 10, Op.set 1 2 20]).getD (Constructor 0 0))).dropLast) :=
  ⟨by decide,
    C4_capacity_evicts_tail _ [1, 0] 2 3 30
      ⟨by decide, by decide, by decide, by decide⟩ (by decide) (by decide) (by decide)⟩

/-- C6.  Walking `order` from head to tail yields exactly the live keys, each
once, in reverse order of their most recent touch.  Formally: any completed
run from a fresh state is tracked exactly by the abstract model `modelRun`,
in which a hit `Get` and any `Set` move (or insert) the touched key to the
front of the abstract recency sequence and evictions delete entries,
preserving the order of the rest — so the sequence of (key, last-touch)
pairs read off the concrete order list equals the model's sequence, whose
order is by construction the reverse order of most recent touch.  The keys
along the walk are moreover pairwise distinct and are exactly the keys of
the index. -/
theorem C6_walk_is_recency_order (cap ttl : Int) (ops : List Op) (s2 : LRUCache)
    (hrun : run (Constructor cap ttl) ops = some s2) :
    modelRun cap ttl [] ops = some (absList s2 (walk s2)) ∧
    (walkKeys s2).Nodup ∧
    (s2.cache.map Prod.fst).Perm (walkKeys s2) := by
  have hs := run_spec ops (Constructor cap ttl) [] (Constructor_wf cap ttl)
  rw [hrun] at hs
  obtain ⟨_, _, l2, W2, h3, _⟩ := hs
  have hw := walk_eq W2
  refine ⟨?_, ?_, ?_⟩
  · rw [hw]
    exact h3
  · unfold walkKeys
    rw [hw]
    exact W2.keys_nodup
  · unfold walkKeys
    rw [hw]
    have hperm := W2.cache_perm.map Prod.fst
    refine hperm.trans ?_
    rw [List.map_map]
    rfl

theorem C6_walk_is_recency_order_witness :
    modelRun 2 5 [] [Op.set 0 1 10, Op.set 1 2 20, Op.get 2 1, Op.set 3 4 40] =
      some (absList ((run (Constructor 2 5)
          [Op.set 0 1 10, Op.set 1 2 20, Op.get 2 1, Op.set 3 4 40]).getD (Constructor 0 0))
        (walk ((run (Constructor 2 5)
          [Op.set 0 1 10, Op.set 1 2 20, Op.get 2 1, Op.set 3 4 40]).getD (Constructor 0 0)))) ∧
    (walkKeys ((run (Constructor 2 5)
      [Op.set 0 1 10, Op.set 1 2 20, Op.get 2 1, Op.set 3 4 40]).getD (Constructor 0 0))).Nodup ∧
    (((run (Constructor 2 5)
      [Op.set 0 1 10, Op.set 1 2 20, Op.get 2 1, Op.set 3 4 40]).getD
        (Constructor 0 0)).cache.map Prod.fst).Perm
      (walkKeys ((run (Constructor 2 5)
        [Op.set 0 1 10, Op.set 1 2 20, Op.get 2 1, Op.set 3 4 40]).getD (Constructor 0 0))) :=
  C6_walk_is_recency_order 2 5 [Op.set 0 1 10, Op.set 1 2 20, Op.get 2 1, Op.set 3 4 40]
    _ (by rfl)

/-- C7.  One pass of the sweeper loop body (run every second:
`sweepIntervalSeconds = 1`, from `time.Tick(1 * time.Second)` in the routine
the constructor spawns) evicts every live entry whose age exceeds `ttl` and
keeps every other entry, using no `Get`/`Set` call: after the pass no entry
with `now - last_touched > ttl` remains anywhere in the structure. -/
theorem C7_sweep_clears_expired (s : LRUCache) (now : Int) (hwf : Wf s) :
    (∀ p ∈ (sweepPass s now).cache,
      ¬(now - (nodeAt (sweepPass s now).heap p.2).timestamp > s.expiration)) ∧
    (∀ p ∈ s.cache, ¬(now - (nodeAt s.heap p.2).timestamp > s.expiration) →
      p ∈ (sweepPass s now).cache) ∧
    sweepIntervalSeconds = 1 := by
  obtain ⟨l, W⟩ := hwf
  obtain ⟨hcap, hexp, W2, habs, hlen, hflds⟩ := sweepPass_spec s l now W
  refine ⟨?_, ?_, rfl⟩
  · intro p hp
    obtain ⟨hi, hk⟩ := W2.mem_cache_iff.1
      (show (p.1, p.2) ∈ (sweepPass s now).cache from hp)
    have hfl := List.of_mem_filter hi
    rw [(hflds p.2).2.2]
    simpa using hfl
  · intro p hp hexp2
    obtain ⟨hi, hk⟩ := W.mem_cache_iff.1 (show (p.1, p.2) ∈ s.cache from hp)
    have hmem : (p.1, p.2) ∈ (sweepPass s now).cache := by
      refine W2.mem_cache_iff.2 ⟨?_, ?_⟩
      · rw [List.mem_filter]
        exact ⟨hi, by simpa using hexp2⟩
      · rw [(hflds p.2).1]
        exact hk
    exact hmem

theorem C7_sweep_clears_expired_witness :
    Wf ((run (Constructor 4 5) [Op.set 0 1 10, Op.set 2 2 20]).getD (Constructor 0 0)) ∧
    ((2, 1) ∈ (sweepPass ((run (Constructor 4 5) [Op.set 0 1 10, Op.set 2 2 20]).getD
        (Constructor 0 0)) 7).cache ∧
    ¬((7 : Int) - (nodeAt (sweepPass ((run (Constructor 4 5)
        [Op.set 0 1 10, Op.set 2 2 20]).getD (Constructor 0 0)) 7).heap 1).timestamp >
      ((run (Constructor 4 5) [Op.set 0 1 10, Op.set 2 2 20]).getD
        (Constructor 0 0)).expiration)) := by
  have hwf0 : Wf ((run (Constructor 4 5) [Op.set 0 1 10, Op.set 2 2 20]).getD
      (Constructor 0 0)) := ⟨[1, 0], by decide, by decide, by decide, by decide⟩
  refine ⟨hwf0, by decide, ?_⟩
  exact (C7_sweep_clears_expired _ 7 hwf0).1 (2, 1) (by decide)

/-- C10.  On the new-key path at capacity, `Set` dereferences `this.tail.key`
without a nil check.  From any well-formed state with `capacity >= 1` the
index/order bijection guarantees the list is non-empty whenever
`|index| >= capacity`, so the tail is non-nil and `Set` always completes.
Without that precondition the dereferenced tail is nil: with capacity 0 and
the (empty) freshly constructed cache, `Set` faults (`none`). -/
theorem C10_set_total_iff_capacity_positive :
    (∀ s now k v, Wf s → 1 ≤ s.capacity → (Set s now k v).isSome = true) ∧
    (∀ ttl now k v, Set (Constructor 0 ttl) now k v = none) := by
  constructor
  · intro s now k v hwf hcap
    obtain ⟨l, W⟩ := hwf
    cases hlk : cacheLookup s.cache k with
    | some i =>
      simp [Set, hlk]
    | none =>
      by_cases hcap2 : (s.cache.length : Int) ≥ s.capacity
      · have hlne : l ≠ [] := by
          intro hcon
          subst hcon
          have h0 : s.cache.length = 0 := by simpa using W.length_cache
          rw [h0] at hcap2
          simp at hcap2
          omega
        have hex : ∃ t, s.tail = some t := by
          rw [W.tail_eq]
          cases hgl : l.getLast? with
          | none => exact absurd (List.getLast?_eq_none_iff.1 hgl) hlne
          | some t => exact ⟨t, rfl⟩
        obtain ⟨t, ht⟩ := hex
        simp [Set, hlk, hcap2, ht]
      · simp [Set, hlk, hcap2]
  · intro ttl now k v
    rfl

theorem C10_set_total_iff_capacity_positive_witness :
    (Wf (Constructor 2 5) ∧ (1 : Int) ≤ (Constructor 2 5).capacity ∧
      (Set (Constructor 2 5) 0 1 10).isSome = true) ∧
    Set (Constructor 0 7) 3 5 50 = none := by
  have hwf0 : Wf (Constructor 2 5) := ⟨[], by decide, by decide, by decide, by decide⟩
  exact ⟨⟨hwf0, by decide,
    (C10_set_total_iff_capacity_positive).1 (Constructor 2 5) 0 1 10 hwf0 (by decide)⟩,
    (C10_set_total_iff_capacity_positive).2 7 3 5 50⟩

end LRU
